import Mathlib

/-!
Verification development for the arithmetic multi-agent repository.

The repository orchestrates a cluster of arithmetic agent services.  This file
gives a shallow embedding of the parts of the code that the verified claims
are about:

* `src/agent_system/arithmetic_a2a/remote_executors.py` : `format_decimal`
* `src/agent_system/arithmetic_a2a/host_executor.py` : the fallback
  tokenizer (`_tokenize_expression`), `_fallback_parse`,
  `_decompose_with_llm`, the pydantic models `DecompositionStep` and
  `DecompositionResult`, and `ArithmeticHostAgentExecutor.execute`
* `src/agent_system/arithmetic_a2a/clients.py` : `_extract_decimal`
* `src/agent_system/MCP.py` : `divide` and `_ensure_operands`
* `src/experiment/manager.py` : `Experiment.start`, `Experiment.stop`,
  `_set_env`, `_restore_env`

Modelling conventions: a finite Python `Decimal` is a triple
(sign, coefficient, exponent).  For the MCP `divide` tool the decimal
context is modelled faithfully after `_pydecimal.py` (precision 28,
`Emin`/`Emax` of -999999/999999, `ROUND_HALF_EVEN`, with
`InvalidOperation`, `DivisionByZero` and `Overflow` trapped and underflow
silently rounding to zero); for `format_decimal` the `normalize()` call is
treated as exact, which is value-preserving on coefficients within the
28-digit precision.  Async effects are modelled by explicit event / call
traces and oracle functions for the remote collaborators.  Fallible code
returns `Except` or `Option`.
-/

/-- Model of a finite Python `decimal.Decimal`: `sign = true` means negative,
the value is `(-1)^sign * coeff * 10^exp`.  Leading zeros of the coefficient
are not observable, so the coefficient is a natural number. -/
structure Decimal where
  sign : Bool
  coeff : ℕ
  exp : ℤ
  deriving DecidableEq, Repr

/-- Real value of a `Decimal`, as a rational.  Used to state arithmetic
properties (division by zero in `ℚ` yields `0`; the code paths compared by
the claims apply identical operation sequences, so this junk value never
differentiates them). -/
def Decimal.toRat (d : Decimal) : ℚ :=
  (if d.sign then -1 else 1) * (d.coeff : ℚ) * (10 : ℚ) ^ d.exp

/-- Parse a list of decimal digit characters most-significant first, as
Python `int` does on a digit string. -/
def digitsToNat (cs : List Char) : ℕ :=
  cs.foldl (fun a c => 10 * a + (c.toNat - 48)) 0

/-- Render a natural number as its decimal digit characters, most-significant
first, as Python `str` does. -/
def natDigitsRender (n : ℕ) : List Char :=
  if n = 0 then ['0'] else (Nat.digits 10 n).reverse.map (fun d => Char.ofNat (48 + d))

/-- One rstrip-style pass: drop the trailing characters of `cs` satisfying
`p` (model of Python `str.rstrip`). -/
def dropTrailing (p : Char → Bool) (cs : List Char) : List Char :=
  (cs.reverse.dropWhile p).reverse

/-- Fuel-bounded loop stripping factors of 10 from a nonzero coefficient,
bumping the exponent: the trailing-zero elimination inside
`decimal.Decimal.normalize`.  The callers pass `fuel = c`, which always
suffices (the loop runs at most log10 c times). -/
def reduceAux : ℕ → ℕ → ℤ → ℕ × ℤ
  | 0, c, e => (c, e)
  | fuel + 1, c, e =>
    if c % 10 = 0 ∧ c ≠ 0 then reduceAux fuel (c / 10) (e + 1) else (c, e)

/-- Model of `decimal.Decimal.normalize` on finite values: zeros get
exponent 0 (the sign is kept); otherwise trailing zeros of the coefficient
move into the exponent.  Context-precision rounding is not modelled. -/
def Decimal.normalize (d : Decimal) : Decimal :=
  if d.coeff = 0 then ⟨d.sign, 0, 0⟩
  else
    let p := reduceAux d.coeff d.coeff d.exp
    ⟨d.sign, p.1, p.2⟩

/-- Model of `format(x, "f")` on a finite `Decimal`: fixed-point rendering,
never scientific notation; a negative sign is emitted even for negative
zero, exactly as CPython does. -/
def fmtF (d : Decimal) : List Char :=
  let ds := natDigitsRender d.coeff
  let body :=
    if 0 ≤ d.exp then ds ++ List.replicate d.exp.toNat '0'
    else
      let n := (-d.exp).toNat
      if n < ds.length then
        ds.take (ds.length - n) ++ '.' :: ds.drop (ds.length - n)
      else
        '0' :: '.' :: (List.replicate (n - ds.length) '0' ++ ds)
  if d.sign then '-' :: body else body

/-- `format_decimal` from `remote_executors.py` (lines 142-147):
normalize, format fixed-point, strip trailing zeros then a trailing dot
when a dot is present, and fall back to `"0"` for an empty string. -/
def format_decimal (d : Decimal) : String :=
  let normalized := d.normalize
  let text := fmtF normalized
  let text := if '.' ∈ text then dropTrailing (fun c => c == '.') (dropTrailing (fun c => c == '0') text) else text
  if text = [] then "0" else ⟨text⟩

/-! ## Fallback tokenizer and parser (`host_executor.py`) -/

/-- Python `str.isspace` restricted to the ASCII whitespace characters the
tokenizer can meet. -/
def isPySpace (c : Char) : Bool :=
  c == ' ' || c == '\t' || c == '\n' || c == '\r' || c == '\x0b' || c == '\x0c'

/-- The character class scanned as part of a number by the tokenizer:
`expression[i].isdigit() or expression[i] == "."` (ASCII digits). -/
def isDigitDot (c : Char) : Bool :=
  c.isDigit || c == '.'

/-- A token of `_tokenize_expression`: the Python list holds
`Decimal | str` values. -/
inductive Token where
  | num (value : Decimal)
  | op (symbol : Char)
  deriving DecidableEq, Repr

/-- Model of `Decimal(text)` on a nonempty run of digit / dot characters:
valid exactly when there is at most one dot and at least one digit
(otherwise Python raises `InvalidOperation`).  The coefficient is the digit
string read as an integer, the exponent is minus the number of digits after
the dot. -/
def parseDecDigits (cs : List Char) : Option Decimal :=
  if cs.all isDigitDot ∧ cs.count '.' ≤ 1 ∧ cs.any Char.isDigit then
    some ⟨false, digitsToNat (cs.filter Char.isDigit),
      -(((cs.dropWhile (fun c => c != '.')).drop 1).length : ℤ)⟩
  else none

/-- `value * current_sign` where `current_sign ∈ {1, -1}` : exact integer
multiplication only flips the sign bit. -/
def mulSign (d : Decimal) (sign : ℤ) : Decimal :=
  if sign < 0 then ⟨!d.sign, d.coeff, d.exp⟩ else d

/-- The operator characters accepted by the tokenizer (`"+-*/"`). -/
def OPS : List Char := ['+', '-', '*', '/']

/-- The scanning loop of `_tokenize_expression`, char by char.  `fuel` is a
structural-recursion device only: every recursive call consumes at least one
character, so the `expression.length + 1` fuel passed by
`tokenize_expression` is never exhausted. -/
def tokenizeFuel : ℕ → List Char → List Token → Bool → ℤ → Except String (List Token)
  | 0, _, _, _, _ => .error "fuel exhausted: unreachable, fuel exceeds input length"
  | _ + 1, [], acc, expectNum, _ =>
    if expectNum then .error "Expression cannot end with an operator" else .ok acc.reverse
  | fuel + 1, c :: cs, acc, expectNum, sign =>
    if isPySpace c then tokenizeFuel fuel cs acc expectNum sign
    else if expectNum then
      if (c == '+' || c == '-') && acc.isEmpty then
        tokenizeFuel fuel cs acc true (if c == '+' then 1 else -1)
      else if isDigitDot c then
        match parseDecDigits (c :: cs.takeWhile isDigitDot) with
        | none => .error "Invalid number"
        | some v => tokenizeFuel fuel (cs.dropWhile isDigitDot) (Token.num (mulSign v sign) :: acc) false 1
      else .error "Expected number"
    else
      if c ∈ OPS then tokenizeFuel fuel cs (Token.op c :: acc) true sign
      else .error "Expected operator"

/-- `_tokenize_expression` from `host_executor.py` (lines 201-237).
`ValueError` is modelled as `Except.error` carrying the message. -/
def tokenize_expression (expression : String) : Except String (List Token) :=
  tokenizeFuel (expression.length + 1) expression.toList [] true 1

/-- The pydantic model `DecompositionStep` (its field values; validation is
`mkDecompositionStep`). -/
structure DecompositionStep where
  operation : String
  operand : Decimal
  deriving DecidableEq, Repr

/-- The pydantic model `DecompositionResult`. -/
structure DecompositionResult where
  initial_value : Decimal
  steps : List DecompositionStep
  deriving DecidableEq, Repr

/-- The pattern constraint on `DecompositionStep.operation`
(regex anchored to exactly `add|sub|mul|div`). -/
def validOperation (s : String) : Bool :=
  s == "add" || s == "sub" || s == "mul" || s == "div"

/-- Constructing a `DecompositionStep` through pydantic validation:
fails on any operation token outside the enumerated set. -/
def mkDecompositionStep (operation : String) (operand : Decimal) : Option DecompositionStep :=
  if validOperation operation then some ⟨operation, operand⟩ else none

/-- A raw (unvalidated) step as found in planner JSON. -/
structure RawStep where
  operation : String
  operand : Decimal
  deriving DecidableEq, Repr

/-- A raw (unvalidated) plan as found in planner JSON. -/
structure RawPlan where
  initial_value : Decimal
  steps : List RawStep
  deriving DecidableEq, Repr

/-- Validate each raw step in order through the `DecompositionStep`
constructor, failing on the first invalid operation token. -/
def validateSteps : List RawStep → Option (List DecompositionStep)
  | [] => some []
  | s :: rest =>
    match mkDecompositionStep s.operation s.operand with
    | none => none
    | some step => (validateSteps rest).map (fun t => step :: t)

/-- Model of `DecompositionResult.model_validate` on structurally
well-typed JSON data: the step-operation pattern check. -/
def validatePlan (raw : RawPlan) : Option DecompositionResult :=
  (validateSteps raw.steps).map (fun ss => ⟨raw.initial_value, ss⟩)

/-- The operator-to-operation mapping of `_fallback_parse`
(`+ → add`, `- → sub`, `* → mul`, `/ → div`, anything else rejected). -/
def opKey (c : Char) : Option String :=
  if c == '+' then some "add"
  else if c == '-' then some "sub"
  else if c == '*' then some "mul"
  else if c == '/' then some "div"
  else none

/-- The pair-consuming loop of `_fallback_parse`: reads
(operator, operand) pairs left to right.  A trailing lone operator token
cannot be produced by the tokenizer (in Python it would raise `IndexError`
on `tokens[idx + 1]`); here it falls into the rejecting catch-all. -/
def parseSteps : List Token → Option (List DecompositionStep)
  | [] => some []
  | Token.op c :: Token.num d :: rest =>
    match opKey c with
    | none => none
    | some key => (parseSteps rest).map (fun s => ⟨key, d⟩ :: s)
  | _ => none

/-- `_fallback_parse` from `host_executor.py` (lines 166-199): tokenize,
require the first token to be a number, then read operator / operand pairs.
The tokenizer never returns an empty token list (in Python `tokens[0]`
would raise), so the empty case rejecting here is unreachable. -/
def fallback_parse (expression : String) : Option DecompositionResult :=
  match tokenize_expression expression with
  | .error _ => none
  | .ok tokens =>
    match tokens with
    | Token.num first :: rest => (parseSteps rest).map (fun s => ⟨first, s⟩)
    | _ => none

/-- `_decompose_with_llm` after the planner reply has been read: the
structured path is an oracle (`.ok plan` when the reply parsed and
validated, `.error exc` for the `json.JSONDecodeError | ValidationError`
message); on a structured failure the fallback parser decides, and a
`RuntimeError` is raised when it returns no plan. -/
def decompose_with_llm (structured : Except String DecompositionResult)
    (expression : String) : Except String DecompositionResult :=
  match structured with
  | .ok plan => .ok plan
  | .error exc =>
    match fallback_parse expression with
    | some plan => .ok plan
    | none => .error ("Invalid decomposition response: " ++ exc)

/-! ## Left-to-right evaluation semantics (for the round-trip claim) -/

/-- Apply a plan operation name to two rationals (the claim side mapping
`add / sub / mul / div`). -/
def applyOp (operation : String) (a b : ℚ) : ℚ :=
  if operation == "add" then a + b
  else if operation == "sub" then a - b
  else if operation == "mul" then a * b
  else if operation == "div" then a / b
  else a

/-- Apply an operator character to two rationals (direct evaluation of the
token sequence). -/
def applySymbol (c : Char) (a b : ℚ) : ℚ :=
  if c == '+' then a + b
  else if c == '-' then a - b
  else if c == '*' then a * b
  else if c == '/' then a / b
  else a

/-- Execute a decomposition plan left to right over the rational value
semantics, threading the running value. -/
def run_plan (plan : DecompositionResult) : ℚ :=
  plan.steps.foldl (fun v s => applyOp s.operation v s.operand.toRat) plan.initial_value.toRat

/-- Direct sequential left-to-right evaluation of an
(operator, number) token tail. -/
def evalTokensAux : ℚ → List Token → ℚ
  | v, Token.op c :: Token.num d :: rest => evalTokensAux (applySymbol c v d.toRat) rest
  | v, _ => v

/-- Direct sequential left-to-right evaluation of a token sequence. -/
def eval_tokens : List Token → ℚ
  | Token.num d :: rest => evalTokensAux d.toRat rest
  | _ => 0

/-- Flatten a list of (operator char, operand) pairs into the token shape
the tokenizer produces after the leading number. -/
def flatPairs (ps : List (Char × Decimal)) : List Token :=
  ps.flatMap (fun p => [Token.op p.1, Token.num p.2])

/-- The step built by `_fallback_parse` for one (operator, operand) pair. -/
def stepOfPair (p : Char × Decimal) : DecompositionStep :=
  ⟨(opKey p.1).getD (String.mk [p.1]), p.2⟩

deriving instance DecidableEq for Except

/-! ## Remote operation client response parsing (`clients.py`) -/

/-- Message role in the A2A protocol. -/
inductive Role where
  | user
  | agent
  deriving DecidableEq, Repr

/-- One part of a message: only `TextPart` carries text the client reads. -/
inductive MsgPart where
  | text (s : String)
  | nonText
  deriving DecidableEq, Repr

/-- An A2A message. -/
structure Message where
  role : Role
  parts : List MsgPart
  deriving DecidableEq, Repr

/-- An A2A task object: ordered message history plus the optional message
attached to the task status (`result.status.message`; an absent status and
a status with no message are both `none`). -/
structure TaskObj where
  history : List Message
  statusMessage : Option Message
  deriving DecidableEq, Repr

/-- The `result` payload of a successful send: a task or a bare message. -/
inductive SendResult where
  | task (t : TaskObj)
  | message (m : Message)
  deriving DecidableEq, Repr

/-- `_message_to_text`: concatenate the text segments with newlines. -/
def message_to_text (m : Message) : String :=
  String.intercalate "\n" (m.parts.filterMap (fun p =>
    match p with
    | .text s => some s
    | .nonText => none))

/-- The message-selection logic at the top of `_extract_decimal`: for a
task, scan the history backwards for an agent-authored message, falling
back to the status message; a bare message is used as is. -/
def selectMessage (r : SendResult) : Option Message :=
  match r with
  | .task t =>
    match t.history.reverse.find? (fun m => m.role == Role.agent) with
    | some m => some m
    | none => t.statusMessage
  | .message m => some m

/-- The optional fractional part of the regex `[-+]?\d+(?:\.\d+)?`: a dot
followed by one or more digits, or nothing (the dot is not consumed when no
digit follows it). -/
def matchFrac : List Char → List Char
  | '.' :: r3 =>
    let fd := r3.takeWhile Char.isDigit
    if fd = [] then [] else '.' :: fd
  | _ => []

/-- The digits-then-fraction part of the regex, with an already-consumed
sign prefix `sg`: requires one or more digits. -/
def matchDigits (sg : List Char) (body : List Char) : Option (List Char) :=
  let ds := body.takeWhile Char.isDigit
  if ds = [] then none
  else some (sg ++ ds ++ matchFrac (body.dropWhile Char.isDigit))

/-- Greedy match of the regex `[-+]?\d+(?:\.\d+)?` anchored at the start of
`cs`: optional sign, one or more digits, optionally a dot followed by one or
more digits (if the sign is taken but no digit follows, the no-sign
alternative fails at this position too, as in the backtracking engine). -/
def matchNumAt (cs : List Char) : Option (List Char) :=
  match cs with
  | [] => none
  | c :: r =>
    if c == '+' || c == '-' then matchDigits [c] r
    else matchDigits [] (c :: r)

/-- `re.search` semantics for the numeric regex: the match at the leftmost
position where one exists. -/
def searchNum : List Char → Option (List Char)
  | [] => none
  | c :: cs =>
    match matchNumAt (c :: cs) with
    | some m => some m
    | none => searchNum cs

/-- `Decimal(text)` on a plain fixed-point literal with an optional sign:
the constructor fragment reachable from the regex matches and from
canonical `format_decimal` output. -/
def decOfChars (cs : List Char) : Option Decimal :=
  match cs with
  | c :: rest =>
    if c == '-' then (parseDecDigits rest).map (fun d => ⟨true, d.coeff, d.exp⟩)
    else if c == '+' then parseDecDigits rest
    else parseDecDigits (c :: rest)
  | [] => none

/-- `_A2AArithmeticClient._extract_decimal` from `clients.py`
(lines 67-90): select a message, join its text parts, take the first
regex match, parse it as a Decimal. -/
def extract_decimal (r : SendResult) : Except String Decimal :=
  match selectMessage r with
  | none => .error "Agent response did not include a message"
  | some m =>
    let text := message_to_text m
    match searchNum text.toList with
    | none => .error ("Unable to parse numeric result from '" ++ text ++ "'")
    | some mt =>
      match decOfChars mt with
      | some d => .ok d
      | none => .error "Invalid numeric result"

/-- The match at the rightmost position where one exists (the
"last occurring" substring in the claim's reading). -/
def searchNumLast : List Char → Option (List Char)
  | [] => none
  | c :: cs =>
    match searchNumLast cs with
    | some m => some m
    | none => matchNumAt (c :: cs)

/-- Modelled from the spec, NOT from the source, for comparison against
`extract_decimal` in the C3 counterexample: the claimed extractor prefers
the explicit status message field over scanning the history and returns the
last occurring decimal-looking substring. -/
def extract_decimal_claimed (r : SendResult) : Except String Decimal :=
  let selected : Option Message :=
    match r with
    | .task t =>
      match t.statusMessage with
      | some m => some m
      | none => t.history.reverse.find? (fun m => m.role == Role.agent)
    | .message m => some m
  match selected with
  | none => .error "Agent response did not include a message"
  | some m =>
    let text := message_to_text m
    match searchNumLast text.toList with
    | none => .error ("Unable to parse numeric result from '" ++ text ++ "'")
    | some mt =>
      match decOfChars mt with
      | some d => .ok d
      | none => .error "Invalid numeric result"

/-! ## The MCP `divide` tool (`MCP.py`), under the decimal context

`MCP.py` sets `getcontext().prec = DEFAULT_PRECISION` (28) and otherwise
runs under Python's default decimal context: `Emin = -999999`,
`Emax = 999999`, rounding `ROUND_HALF_EVEN`, `clamp = 0`, and the traps
`InvalidOperation`, `DivisionByZero` and `Overflow` enabled (all other
signals, in particular `Underflow`/`Subnormal`/`Clamped`/`Inexact`, only
set flags: a subnormal quotient is silently rounded, possibly to zero).
`Decimal.__truediv__` and the context rounding step `Decimal._fix` are
modelled below exactly as CPython implements them for finite operands
(`_pydecimal.py`), split into small named pieces; the final
`str(quotient)` serialization of a successful result is not modelled, as
no claim depends on it. -/

/-- `DEFAULT_PRECISION` from `MCP.py`, installed as `getcontext().prec`. -/
def DEFAULT_PRECISION : ℕ := 28

/-- `Emin` of the default decimal context. -/
def ctxEmin : ℤ := -999999

/-- `Emax` of the default decimal context. -/
def ctxEmax : ℤ := 999999

/-- `Context.Etiny() = Emin - prec + 1`: the exponent of the smallest
positive subnormal. -/
def ctxEtiny : ℤ := ctxEmin - DEFAULT_PRECISION + 1

/-- `Context.Etop() = Emax - prec + 1`: the largest allowed exponent of a
full-precision coefficient. -/
def ctxEtop : ℤ := ctxEmax - DEFAULT_PRECISION + 1

/-- Fuel-bounded digit count: `numDigitsGo f n` is `len(str(n))` whenever
`f ≥ n` (each step divides `n` by 10, and `n / 10 < n` for `n ≥ 10`, so
the fuel below never runs out). -/
def numDigitsGo : ℕ → ℕ → ℕ
  | 0, _ => 1
  | f + 1, n => if n < 10 then 1 else numDigitsGo f (n / 10) + 1

/-- `len(str(n))` for a natural number: the number of decimal digits
(`numDigits 0 = 1`, matching the coefficient string `'0'`). -/
def numDigits (n : ℕ) : ℕ := numDigitsGo n n

/-- The exact-quotient loop of `Decimal.__truediv__`:
`while exp < ideal_exp and coeff % 10 == 0: coeff //= 10; exp += 1`.
Fuel-bounded with fuel `coeff` (each iteration needs `coeff % 10 = 0`,
hence `coeff ≥ 10` once `coeff ≠ 0`, and `coeff` strictly shrinks, so the
initial fuel `coeff` never runs out). -/
def dropZeros : ℕ → ℕ → ℤ → ℤ → ℕ × ℤ
  | 0, c, e, _ => (c, e)
  | f + 1, c, e, ideal =>
    if e < ideal ∧ c % 10 = 0 then dropZeros f (c / 10) (e + 1) ideal
    else (c, e)

/-- `ROUND_HALF_EVEN` as a numeric decision.  Dropping the low `d ≥ 1`
digits of a coefficient splits it as `kept * 10^d + rem`; with
`half = 5 * 10^(d-1)`, CPython's `_round_half_even` increments `kept`
exactly when the dropped part exceeds a half-ulp, or equals it with an odd
`kept` (`_exact_half` plus the `'02468'` test; for `digits = 0` the kept
part is `0`, which is even). -/
def roundHalfEvenUp (kept rem half : ℕ) : Bool :=
  half < rem || (rem == half && kept % 2 == 1)

/-- The failure modes of the `divide` tool body:
`ValueError("At least two operands are required")` from `_ensure_operands`;
the trapped `decimal.DivisionByZero` signal raised by a division;
`ValueError("Division by zero is not allowed")`, which the
`except DivisionByZero` handler re-raises in its place;
the trapped `decimal.InvalidOperation` (`DivisionUndefined`, raised for
`0 / 0`), which the handler does not catch; and the trapped
`decimal.Overflow`, likewise uncaught. -/
inductive ArithError where
  | tooFewOperands
  | divisionByZero
  | valueErrorDivByZero
  | invalidOperation
  | overflow
  deriving DecidableEq, Repr

/-- `exp_min` of `Decimal._fix` for a nonzero coefficient `c` at exponent
`e`: the smallest exponent the rounded result may use,
`len(str(c)) + e - prec` clamped up to `Etiny` in the subnormal case
(`if self_is_subnormal: exp_min = Etiny`). -/
def fixExpMin (c : ℕ) (e : ℤ) : ℤ :=
  let m : ℤ := numDigits c + e - DEFAULT_PRECISION
  if m < ctxEtiny then ctxEtiny else m

/-- Final exponent check of `_fix`: `Overflow` (trapped, hence raised) when
the rounding pushed the exponent past `Etop`, otherwise the finished
decimal. -/
def fixResult (sign : Bool) (r : ℕ × ℤ) : Except ArithError Decimal :=
  if ctxEtop < r.2 then .error .overflow
  else .ok ⟨sign, r.1, r.2⟩

/-- The `self._exp < exp_min` rounding arm of `Decimal._fix` (nonzero
coefficient `c0` at exponent `exp0`, target exponent `exp_min`):
`digits = len(str(c0)) + exp0 - exp_min` digits are kept (a negative count
replaces the value by `1` at `exp_min - 1`, so everything is dropped), the
kept coefficient is rounded half-even against the dropped part, a carry
beyond `prec` digits sheds its trailing zero
(`coeff = coeff[:-1]; exp_min += 1`), and the result passes the final
overflow check. -/
def fixRound (sign : Bool) (c0 : ℕ) (exp0 exp_min : ℤ) : Except ArithError Decimal :=
  let digits : ℤ := numDigits c0 + exp0 - exp_min
  let c : ℕ := if digits < 0 then 1 else c0
  let kept_digits : ℕ := if digits < 0 then 0 else digits.toNat
  let d : ℕ := numDigits c - kept_digits
  let kept := c / 10 ^ d
  let rem := c % 10 ^ d
  let half := 5 * 10 ^ (d - 1)
  let r :=
    if roundHalfEvenUp kept rem half then
      if DEFAULT_PRECISION < numDigits (kept + 1) then ((kept + 1) / 10, exp_min + 1)
      else (kept + 1, exp_min)
    else (kept, exp_min)
  fixResult sign r

/-- `Decimal._fix(context)` for a finite decimal under the default context
(`_pydecimal.py` lines 1671-1761, with `clamp = 0`): a zero has its
exponent clamped into `[Etiny, Emax]`; a nonzero value overflows (trapped)
when its adjusted exponent exceeds `Emax`
(`len(self._int) + self._exp - prec > Etop`), is rounded by `fixRound`
when its exponent lies below `exp_min` — a subnormal result is rounded at
`Etiny` instead, and `Underflow` is not trapped, so a tiny quotient
silently becomes `0E-1000026` — and is returned unchanged otherwise. -/
def Decimal.fix (x : Decimal) : Except ArithError Decimal :=
  if x.coeff = 0 then
    .ok ⟨x.sign, 0, min (max x.exp ctxEtiny) ctxEmax⟩
  else if ctxEtop < (numDigits x.coeff : ℤ) + x.exp - DEFAULT_PRECISION then
    .error .overflow
  else if x.exp < fixExpMin x.coeff x.exp then
    fixRound x.sign x.coeff x.exp (fixExpMin x.coeff x.exp)
  else .ok x

/-- The nonzero-by-nonzero arm of `Decimal.__truediv__` before the final
`_fix`: the coefficient is computed by integer division after shifting the
numerator so the quotient carries `prec + 1` digits past the ideal length;
an inexact remainder sets a sticky digit (`if coeff % 5 == 0: coeff += 1`),
an exact quotient drops trailing zeros toward the ideal exponent
`self._exp - other._exp`. -/
def truedivRaw (a b : Decimal) : Decimal :=
  let sign := xor a.sign b.sign
  let shift : ℤ := (numDigits b.coeff : ℤ) - numDigits a.coeff + DEFAULT_PRECISION + 1
  let exp := a.exp - b.exp - shift
  let num := if 0 ≤ shift then a.coeff * 10 ^ shift.toNat else a.coeff
  let den := if 0 ≤ shift then b.coeff else b.coeff * 10 ^ (-shift).toNat
  let coeff := num / den
  let remainder := num % den
  if remainder ≠ 0 then
    ⟨sign, if coeff % 5 = 0 then coeff + 1 else coeff, exp⟩
  else
    let r := dropZeros coeff coeff exp (a.exp - b.exp)
    ⟨sign, r.1, r.2⟩

/-- `Decimal.__truediv__` for finite operands under the default context
(`_pydecimal.py` lines 1334-1391): `0 / 0` raises `DivisionUndefined` (an
`InvalidOperation`), `x / 0` with `x ≠ 0` raises `DivisionByZero`, a zero
numerator keeps its sign and exponent difference, and otherwise the raw
quotient `truedivRaw` is rounded by `Decimal.fix`. -/
def Decimal.truediv (a b : Decimal) : Except ArithError Decimal :=
  if b.coeff = 0 then
    if a.coeff = 0 then .error .invalidOperation
    else .error .divisionByZero
  else if a.coeff = 0 then
    Decimal.fix ⟨xor a.sign b.sign, 0, a.exp - b.exp⟩
  else
    Decimal.fix (truedivRaw a b)

/-- `_ensure_operands`: at least two operands required, else
`ValueError("At least two operands are required")`. -/
def ensure_operands (operands : List Decimal) : Except ArithError (List Decimal) :=
  if operands.length < 2 then .error .tooFewOperands else .ok operands

/-- The loop of `divide`: `quotient /= value` for each remaining value,
with `except DivisionByZero` re-raised as
`ValueError("Division by zero is not allowed")`; every other trapped
signal (`InvalidOperation`, `Overflow`) escapes the handler unchanged. -/
def divideLoop : Decimal → List Decimal → Except ArithError Decimal
  | q, [] => .ok q
  | q, v :: vs =>
    match Decimal.truediv q v with
    | .ok q' => divideLoop q' vs
    | .error .divisionByZero => .error .valueErrorDivByZero
    | .error e => .error e

/-- `divide` from `MCP.py` (lines 55-64).  The empty-list fallback after
`ensure_operands` is unreachable (the length is at least two). -/
def divide (operands : List Decimal) : Except ArithError Decimal :=
  match ensure_operands operands with
  | .error e => .error e
  | .ok values =>
    match values with
    | [] => .error .tooFewOperands
    | v :: vs => divideLoop v vs

/-! ## Host orchestrator execution (`host_executor.py`, `execute`) -/

/-- Task states used by the orchestrator's status events. -/
inductive TaskState where
  | working
  | completed
  | failed
  deriving DecidableEq, Repr

/-- An event enqueued by `execute`: either a plain agent text message
(`new_agent_text_message`) or a `TaskStatusUpdateEvent` carrying the
status text, state and final flag. -/
inductive Event where
  | plainText (text : String)
  | statusUpdate (text : String) (state : TaskState) (final : Bool)
  deriving DecidableEq, Repr

/-- One remote operation invocation performed by the step loop. -/
structure RemoteCall where
  operation : String
  lhs : Decimal
  rhs : Decimal
  deriving DecidableEq, Repr

/-- How the `execute` coroutine ends. -/
inductive ExecEnd where
  | emptyInput
  | decomposeFailed
  | unsupportedOp
  | completed
  | raised (msg : String)
  deriving DecidableEq, Repr

/-- `send_status`: with both a task id and a context id a structured status
update is emitted, otherwise a plain text message (and then no event is
ever marked final). -/
def send_status (hasIds : Bool) (text : String) (state : TaskState) (final : Bool) : Event :=
  if hasIds then .statusUpdate text state final else .plainText text

/-- `symbol_map.get(op, op)`. -/
def symbolMap (operation : String) : String :=
  if operation == "add" then "+"
  else if operation == "sub" then "-"
  else if operation == "mul" then "*"
  else if operation == "div" then "/"
  else operation

/-- The itemized plan lines (`"  {idx}. {operator} {operand}"`). -/
def planLines : List DecompositionStep → ℕ → List String
  | [], _ => []
  | s :: rest, idx =>
    ("  " ++ toString idx ++ ". " ++ symbolMap s.operation ++ " " ++ format_decimal s.operand)
      :: planLines rest (idx + 1)

/-- The step loop of `execute`.  `env` is the oracle for the four remote
operation clients (keyed by the step operation; an `.error` is an exception
raised by the client call).  Returns the events emitted by the loop, the
remote calls performed in order, and how the loop ended: normally with the
final running value, via the defensive unsupported-operation branch, or by
an exception propagating out of `execute` (in which case nothing more is
emitted). -/
def runSteps (env : String → Decimal → Decimal → Except String Decimal) (hasIds : Bool) :
    Decimal → ℕ → List DecompositionStep →
    List Event × List RemoteCall × Except String (Option Decimal)
  | current, _, [] => ([], [], .ok (some current))
  | current, idx, step :: rest =>
    if validOperation step.operation then
      match env step.operation current step.operand with
      | .error e => ([], [⟨step.operation, current, step.operand⟩], .error e)
      | .ok result =>
        let ev := send_status hasIds
          ("Step " ++ toString idx ++ ": " ++ format_decimal current ++ " "
            ++ symbolMap step.operation ++ " " ++ format_decimal step.operand
            ++ " = " ++ format_decimal result) .working false
        let r := runSteps env hasIds result (idx + 1) rest
        (ev :: r.1, ⟨step.operation, current, step.operand⟩ :: r.2.1, r.2.2)
    else
      ([send_status hasIds ("Unsupported operation '" ++ step.operation ++ "'") .failed true],
        [], .ok none)

/-- Python `str.strip`. -/
def pyStrip (s : String) : String :=
  ⟨dropTrailing isPySpace (s.toList.dropWhile isPySpace)⟩

/-- `ArithmeticHostAgentExecutor.execute` (lines 59-132), with the
decomposition outcome abstracted as an oracle (`planResult` is what
`_decompose_with_llm` returned or raised) and the remote clients abstracted
as `env`.  Returns the ordered event trace, the remote calls performed,
and the way the coroutine ended. -/
def execute (env : String → Decimal → Decimal → Except String Decimal) (hasIds : Bool)
    (planResult : Except String DecompositionResult) (userInput : Option String) :
    List Event × List RemoteCall × ExecEnd :=
  let expression := pyStrip (userInput.getD "")
  if expression = "" then
    ([.plainText "Please provide an arithmetic expression to evaluate."], [], .emptyInput)
  else
    let ev1 := send_status hasIds ("Planning expression: " ++ expression) .working false
    match planResult with
    | .error exc =>
      ([ev1, .plainText ("Unable to decompose expression: " ++ exc)], [], .decomposeFailed)
    | .ok plan =>
      let planText := String.intercalate "\n"
        ("Plan:" :: ("  start = " ++ format_decimal plan.initial_value) :: planLines plan.steps 1)
      let ev2 := send_status hasIds planText .working false
      let r := runSteps env hasIds plan.initial_value 1 plan.steps
      match r.2.2 with
      | .ok (some current) =>
        (ev1 :: ev2 :: r.1 ++ [send_status hasIds (format_decimal current) .completed true],
          r.2.1, .completed)
      | .ok none => (ev1 :: ev2 :: r.1, r.2.1, .unsupportedOp)
      | .error e => (ev1 :: ev2 :: r.1, r.2.1, .raised e)

/-- Whether an event is a terminal (final) status event. -/
def isFinalEvent : Event → Bool
  | .statusUpdate _ _ final => final
  | .plainText _ => false

/-! ## Experiment lifecycle (`experiment/manager.py`) -/

/-- `ExperimentConfig` (`experiment/config.py`); `log_root` is a
filesystem path with no bearing on the verified claims and is omitted. -/
structure ExperimentConfig where
  host : String := "127.0.0.1"
  mcp_port : ℕ := 18200
  addition_port : ℕ := 18201
  subtraction_port : ℕ := 18202
  host_port : ℕ := 18203
  llm_model : String := "gpt-4o-mini"
  llm_api_key : Option String := none

/-- The mutable state an `Experiment` instance touches: the process
environment (`os.environ`, a partial map), the insertion-ordered
`_env_overrides` record, the `_handles` list (by server name), the
`_host_client` presence flag and the `_started` flag. -/
structure ExpState where
  environ : String → Option String
  envOverrides : List (String × Option String)
  handles : List String
  hostClient : Bool
  started : Bool

/-- Python truthiness of an optional string (absent and empty are falsy). -/
def truthyOpt : Option String → Bool
  | none => false
  | some s => s != ""

/-- `Experiment._set_env`: record the prior value of the key on first
override only, then set it. -/
def set_env (st : ExpState) (key value : String) : ExpState :=
  { st with
    environ := fun k => if k = key then some value else st.environ k,
    envOverrides :=
      if (st.envOverrides.map Prod.fst).contains key then st.envOverrides
      else st.envOverrides ++ [(key, st.environ key)] }

/-- `Experiment._restore_env`: iterate the recorded overrides in reverse
insertion order, restoring each key to its recorded prior value (`none`
means the key is removed), then clear the record. -/
def restore_env (st : ExpState) : ExpState :=
  { st with
    environ := st.envOverrides.reverse.foldl
      (fun e kv => fun k => if k = kv.1 then kv.2 else e k) st.environ,
    envOverrides := [] }

/-- Lifecycle actions observable from the outside, in order. -/
inductive LifecycleAction where
  | serverStarted (name : String)
  | serverStartFailed (name : String)
  | serverStopped (name : String)
  deriving DecidableEq, Repr

/-- The fixed bring-up order of `Experiment.start`. -/
def serverNames : List String := ["mcp", "addition", "subtraction", "host"]

/-- The sequential `start_uvicorn` attempts inside the `try` block: `upOk`
tells whether each named server starts.  Returns the successfully started
names in start order, the action trace, and whether every start
succeeded. -/
def bringUp (upOk : String → Bool) : List String → List String × List LifecycleAction × Bool
  | [] => ([], [], true)
  | n :: rest =>
    if upOk n then
      let r := bringUp upOk rest
      (n :: r.1, LifecycleAction.serverStarted n :: r.2.1, r.2.2)
    else ([], [LifecycleAction.serverStartFailed n], false)

/-- `Experiment.start` (lines 34-77).  Returns the new state, the action
trace, and whether the call raised.  The rollback stops the already
started servers in reverse start order with failures suppressed
(`contextlib.suppress(Exception)`, so a failing stop has no further
observable effect here), restores the environment and re-raises.
Filesystem effects (`mkdir`) are not modelled. -/
def Experiment.start (cfg : ExperimentConfig) (upOk : String → Bool) (st : ExpState) :
    ExpState × List LifecycleAction × Bool :=
  if st.started then (st, [], false)
  else if truthyOpt cfg.llm_api_key = false ∧ truthyOpt (st.environ "LLM_API_KEY") = false then
    (st, [], true)
  else
    let st1 := if truthyOpt cfg.llm_api_key then
        set_env st "LLM_API_KEY" (cfg.llm_api_key.getD "") else st
    let st2 := set_env st1 "LLM_MODEL" cfg.llm_model
    let base := "http://" ++ cfg.host
    let st3 := set_env st2 "MCP_SERVER_URL" (base ++ ":" ++ toString cfg.mcp_port ++ "/mcp")
    let st4 := set_env st3 "ADDITION_AGENT_URL" (base ++ ":" ++ toString cfg.addition_port)
    let st5 := set_env st4 "SUBTRACTION_AGENT_URL" (base ++ ":" ++ toString cfg.subtraction_port)
    let st6 := set_env st5 "A2A_HOST_PUBLIC_URL" (base ++ ":" ++ toString cfg.host_port)
    let r := bringUp upOk serverNames
    if r.2.2 then
      ({ st6 with handles := st6.handles ++ r.1, hostClient := true, started := true },
        r.2.1, false)
    else
      (restore_env st6, r.2.1 ++ r.1.reverse.map LifecycleAction.serverStopped, true)

/-- `Experiment.stop` (lines 79-92): a no-op unless started; otherwise
close the host client, pop and stop every handle from the end of the list
(exceptions are swallowed by the `continue`), restore the environment and
clear the started flag. -/
def Experiment.stop (st : ExpState) : ExpState × List LifecycleAction :=
  if st.started = false then (st, [])
  else
    let st1 := { st with hostClient := false, handles := [] }
    let st2 := restore_env st1
    ({ st2 with started := false }, st.handles.reverse.map LifecycleAction.serverStopped)
/-! ## Helper lemmas: decimal digits -/

lemma digit_char_toNat {d : ℕ} (h : d < 10) : (Char.ofNat (48 + d)).toNat - 48 = d := by
  interval_cases d <;> rfl

lemma digit_char_isDigit {d : ℕ} (h : d < 10) : (Char.ofNat (48 + d)).isDigit = true := by
  interval_cases d <;> rfl

lemma digit_char_ne_dot {d : ℕ} (h : d < 10) : (Char.ofNat (48 + d)) ≠ '.' := by
  interval_cases d <;> decide

lemma digit_char_ne_zero {d : ℕ} (h : d < 10) (hd : d ≠ 0) : (Char.ofNat (48 + d)) ≠ '0' := by
  interval_cases d <;> simp_all

lemma isDigit_ne_minus {c : Char} (h : c.isDigit = true) : c ≠ '-' := by
  intro h2; subst h2; simp [Char.isDigit] at h

lemma isDigit_ne_plus {c : Char} (h : c.isDigit = true) : c ≠ '+' := by
  intro h2; subst h2; simp [Char.isDigit] at h

lemma isDigit_ne_dot {c : Char} (h : c.isDigit = true) : c ≠ '.' := by
  intro h2; subst h2; simp [Char.isDigit] at h

lemma digitsToNat_cons (c : Char) (cs : List Char) :
    digitsToNat (c :: cs) = List.foldl (fun a x => 10 * a + (x.toNat - 48)) (c.toNat - 48) cs := by
  simp [digitsToNat]

lemma foldl_digits_replicate_zero (e : ℕ) : ∀ a : ℕ,
    List.foldl (fun a x => 10 * a + (x.toNat - 48)) a (List.replicate e '0') = a * 10 ^ e := by
  induction e with
  | zero => intro a; simp
  | succ n ih =>
    intro a
    rw [List.replicate_succ, List.foldl_cons, ih]
    have : '0'.toNat - 48 = 0 := rfl
    rw [this]
    ring

lemma foldl_digit_list (ds : List ℕ) (h : ∀ d ∈ ds, d < 10) : ∀ a : ℕ,
    List.foldl (fun a x => 10 * a + (x.toNat - 48)) a
      (ds.reverse.map (fun d => Char.ofNat (48 + d))) = a * 10 ^ ds.length + Nat.ofDigits 10 ds := by
  induction ds with
  | nil => intro a; simp
  | cons d ds ih =>
    intro a
    have hd : d < 10 := h d (by simp)
    have hds : ∀ x ∈ ds, x < 10 := fun x hx => h x (by simp [hx])
    rw [List.reverse_cons, List.map_append, List.foldl_append, ih hds a]
    simp only [List.map_cons, List.map_nil, List.foldl_cons, List.foldl_nil]
    rw [digit_char_toNat hd, Nat.ofDigits_cons]
    simp only [List.length_cons, pow_succ]
    ring

lemma digitsToNat_render (n : ℕ) : digitsToNat (natDigitsRender n) = n := by
  by_cases h : n = 0
  · subst h; rfl
  · unfold natDigitsRender digitsToNat
    rw [if_neg h]
    rw [foldl_digit_list _ (fun d hd => Nat.digits_lt_base (by norm_num) hd) 0]
    simp [Nat.ofDigits_digits]

lemma natDigitsRender_all_digit (n : ℕ) : ∀ c ∈ natDigitsRender n, c.isDigit = true := by
  unfold natDigitsRender
  by_cases h : n = 0
  · simp [h]
  · rw [if_neg h]
    intro c hc
    rw [List.mem_map] at hc
    obtain ⟨d, hd, rfl⟩ := hc
    exact digit_char_isDigit (Nat.digits_lt_base (by norm_num) (List.mem_reverse.mp hd))

lemma natDigitsRender_ne_nil (n : ℕ) : natDigitsRender n ≠ [] := by
  unfold natDigitsRender
  by_cases h : n = 0
  · simp [h]
  · rw [if_neg h]
    simp [Nat.digits_ne_nil_iff_ne_zero.mpr h]

lemma natDigitsRender_last (n : ℕ) (h : n ≠ 0) :
    ∃ cs, natDigitsRender n = cs ++ [Char.ofNat (48 + n % 10)] := by
  unfold natDigitsRender
  rw [if_neg h]
  rw [Nat.digits_def' (by norm_num : 1 < 10) (Nat.pos_of_ne_zero h), List.reverse_cons,
    List.map_append]
  exact ⟨_, rfl⟩

/-! ## Helper lemmas: normalize -/

lemma reduceAux_spec : ∀ (fuel c : ℕ) (e : ℤ), c ≠ 0 → c ≤ fuel →
    ¬ (10 ∣ (reduceAux fuel c e).1) ∧ (reduceAux fuel c e).1 ≠ 0 := by
  intro fuel
  induction fuel with
  | zero => intro c e hc hle; omega
  | succ f ih =>
    intro c e hc hle
    rw [reduceAux]
    by_cases h : c % 10 = 0 ∧ c ≠ 0
    · rw [if_pos h]
      have h10 : 10 ∣ c := Nat.dvd_of_mod_eq_zero h.1
      have hge : 10 ≤ c := Nat.le_of_dvd (Nat.pos_of_ne_zero hc) h10
      have hne : c / 10 ≠ 0 := by
        intro h0
        have := Nat.div_mul_cancel h10
        omega
      have hlt : c / 10 < c := Nat.div_lt_self (Nat.pos_of_ne_zero hc) (by norm_num)
      exact ih (c / 10) (e + 1) hne (by omega)
    · rw [if_neg h]
      refine ⟨?_, hc⟩
      intro hdvd
      exact h ⟨by omega, hc⟩

lemma reduceAux_noop (fuel c : ℕ) (e : ℤ) (h : ¬ (10 ∣ c)) : reduceAux fuel c e = (c, e) := by
  cases fuel with
  | zero => rfl
  | succ f =>
    rw [reduceAux, if_neg]
    intro hcon
    exact h (Nat.dvd_of_mod_eq_zero hcon.1)

lemma reduceAux_pow (m : ℕ) (hm : ¬ (10 ∣ m)) (hm0 : m ≠ 0) :
    ∀ (k : ℕ) (e : ℤ) (fuel : ℕ), m * 10 ^ k ≤ fuel →
      reduceAux fuel (m * 10 ^ k) e = (m, e + k) := by
  intro k
  induction k with
  | zero => intro e fuel _; simpa using reduceAux_noop fuel m e hm
  | succ k ih =>
    intro e fuel hle
    have hpos : 0 < m * 10 ^ (k + 1) :=
      Nat.mul_pos (Nat.pos_of_ne_zero hm0) (pow_pos (by norm_num) (k + 1))
    obtain ⟨f, rfl⟩ : ∃ f, fuel = f + 1 := ⟨fuel - 1, by omega⟩
    rw [reduceAux, if_pos]
    · have hdiv : m * 10 ^ (k + 1) / 10 = m * 10 ^ k := by
        rw [pow_succ, ← mul_assoc]
        omega
      rw [hdiv]
      have hfe : m * 10 ^ k ≤ f := by
        have h1 : 1 ≤ m * 10 ^ k :=
          Nat.mul_pos (Nat.pos_of_ne_zero hm0) (pow_pos (by norm_num) k)
        have h2 : m * 10 ^ (k + 1) = 10 * (m * 10 ^ k) := by ring
        omega
      rw [ih (e + 1) f hfe]
      simp only [Prod.mk.injEq, true_and]
      push_cast
      ring
    · constructor
      · have : m * 10 ^ (k + 1) = (m * 10 ^ k) * 10 := by ring
        omega
      · omega

lemma decNormalize_zero (x : Decimal) (h : x.coeff = 0) : x.normalize = ⟨x.sign, 0, 0⟩ := by
  rw [Decimal.normalize, if_pos h]

lemma normalize_spec (x : Decimal) (h : x.coeff ≠ 0) :
    ¬ (10 ∣ x.normalize.coeff) ∧ x.normalize.coeff ≠ 0 ∧ x.normalize.sign = x.sign := by
  rw [Decimal.normalize, if_neg h]
  obtain ⟨h1, h2⟩ := reduceAux_spec x.coeff x.coeff x.exp h (le_refl _)
  exact ⟨h1, h2, rfl⟩

lemma normalize_reduced (s : Bool) (c : ℕ) (e : ℤ) (h10 : ¬ (10 ∣ c)) (h0 : c ≠ 0) :
    Decimal.normalize ⟨s, c, e⟩ = ⟨s, c, e⟩ := by
  rw [Decimal.normalize, if_neg h0]
  simp [reduceAux_noop c c e h10]

lemma normalize_mul_pow (s : Bool) (m k : ℕ) (h10 : ¬ (10 ∣ m)) (h0 : m ≠ 0) :
    Decimal.normalize ⟨s, m * 10 ^ k, (0 : ℤ)⟩ = ⟨s, m, (k : ℤ)⟩ := by
  have hne : m * 10 ^ k ≠ 0 := by
    have := Nat.mul_pos (Nat.pos_of_ne_zero h0) (pow_pos (by norm_num : (0:ℕ) < 10) k)
    omega
  rw [Decimal.normalize, if_neg hne]
  simp [reduceAux_pow m h10 h0 k 0 (m * 10 ^ k) (le_refl _)]

/-! ## Helper lemmas: fixed-point rendering and the rstrip passes -/

lemma dropWhile_append_all {p : Char → Bool} {A B : List Char} (h : ∀ a ∈ A, p a = true) :
    List.dropWhile p (A ++ B) = List.dropWhile p B := by
  induction A with
  | nil => rfl
  | cons a A ih =>
    rw [List.cons_append, List.dropWhile_cons, if_pos (h a (by simp))]
    exact ih (fun x hx => h x (by simp [hx]))

lemma dropTrailing_noop (p : Char → Bool) (cs : List Char) (x : Char)
    (h : cs.getLast? = some x) (hx : p x = false) : dropTrailing p cs = cs := by
  rw [dropTrailing]
  have hrev : cs.reverse.head? = some x := by rw [List.head?_reverse, h]
  cases hc : cs.reverse with
  | nil => rw [hc] at hrev; simp at hrev
  | cons y t =>
    rw [hc] at hrev
    simp only [List.head?_cons, Option.some.injEq] at hrev
    subst hrev
    rw [List.dropWhile_cons, if_neg (by simp [hx]), ← hc, List.reverse_reverse]

lemma fmtF_nonneg_eq (s : Bool) (c : ℕ) (e : ℤ) (he : 0 ≤ e) :
    fmtF ⟨s, c, e⟩ = (if s then ['-'] else [])
      ++ (natDigitsRender c ++ List.replicate e.toNat '0') := by
  rw [fmtF]
  simp only [if_pos he]
  cases s <;> simp

lemma fmtF_neg_eq (s : Bool) (c : ℕ) (e : ℤ) (he : e < 0) :
    fmtF ⟨s, c, e⟩ = (if s then ['-'] else [])
      ++ (if (-e).toNat < (natDigitsRender c).length then
          (natDigitsRender c).take ((natDigitsRender c).length - (-e).toNat)
            ++ '.' :: (natDigitsRender c).drop ((natDigitsRender c).length - (-e).toNat)
        else
          '0' :: '.' :: (List.replicate ((-e).toNat - (natDigitsRender c).length) '0'
            ++ natDigitsRender c)) := by
  rw [fmtF]
  simp only [if_neg (not_le.mpr he)]
  cases s <;> simp

lemma fmtF_nonneg_no_dot (s : Bool) (c : ℕ) (e : ℤ) (he : 0 ≤ e) :
    '.' ∉ fmtF ⟨s, c, e⟩ := by
  rw [fmtF_nonneg_eq s c e he]
  intro hmem
  rw [List.mem_append] at hmem
  rcases hmem with h | h
  · cases s <;> simp_all
  · rw [List.mem_append] at h
    rcases h with h | h
    · exact isDigit_ne_dot (natDigitsRender_all_digit c _ h) rfl
    · exact absurd (List.eq_of_mem_replicate h) (by decide)

lemma fmtF_neg_last (s : Bool) (c : ℕ) (e : ℤ) (h0 : c ≠ 0) (he : e < 0) :
    ∃ A, fmtF ⟨s, c, e⟩ = A ++ [Char.ofNat (48 + c % 10)] ∧ '.' ∈ fmtF ⟨s, c, e⟩ := by
  obtain ⟨cs0, hcs0⟩ := natDigitsRender_last c h0
  have hlen : (natDigitsRender c).length = cs0.length + 1 := by rw [hcs0]; simp
  rw [fmtF_neg_eq s c e he, hlen, hcs0]
  by_cases hb : (-e).toNat < cs0.length + 1
  · rw [if_pos hb]
    have hn1 : 1 ≤ (-e).toNat := by omega
    rw [List.drop_append_of_le_length (by omega)]
    refine ⟨(if s then ['-'] else []) ++ ((cs0 ++ [Char.ofNat (48 + c % 10)]).take
      (cs0.length + 1 - (-e).toNat)
        ++ '.' :: cs0.drop (cs0.length + 1 - (-e).toNat)), ?_, ?_⟩
    · simp
    · simp
  · rw [if_neg hb]
    refine ⟨(if s then ['-'] else []) ++ ('0' :: '.' ::
      (List.replicate ((-e).toNat - (cs0.length + 1)) '0' ++ cs0)), ?_, ?_⟩
    · simp
    · simp

lemma normalize_coeff_zero (x : Decimal) (h : x.normalize.coeff = 0) :
    x.normalize = ⟨x.sign, 0, 0⟩ := by
  by_cases hc : x.coeff = 0
  · exact decNormalize_zero x hc
  · exact absurd h (normalize_spec x hc).2.1

lemma fmtF_ne_nil (s : Bool) (c : ℕ) (e : ℤ) : fmtF ⟨s, c, e⟩ ≠ [] := by
  by_cases he : 0 ≤ e
  · rw [fmtF_nonneg_eq s c e he]
    have := natDigitsRender_ne_nil c
    cases s <;> simp_all
  · rw [fmtF_neg_eq s c e (by omega)]
    by_cases hb : (-e).toNat < (natDigitsRender c).length
    · rw [if_pos hb]; cases s <;> simp
    · rw [if_neg hb]; cases s <;> simp

lemma format_decimal_eq (x : Decimal) :
    format_decimal x = ⟨fmtF x.normalize⟩ := by
  by_cases he : 0 ≤ x.normalize.exp
  · have hnd : '.' ∉ fmtF x.normalize :=
      fmtF_nonneg_no_dot x.normalize.sign x.normalize.coeff x.normalize.exp he
    rw [format_decimal]
    simp only [if_neg hnd]
    rw [if_neg (fmtF_ne_nil x.normalize.sign x.normalize.coeff x.normalize.exp)]
  · have hc : x.normalize.coeff ≠ 0 := by
      intro h0
      rw [normalize_coeff_zero x h0] at he
      simp at he
    have h10 : ¬ (10 ∣ x.normalize.coeff) := by
      by_cases hx : x.coeff = 0
      · exact absurd (by rw [decNormalize_zero x hx]) hc
      · exact (normalize_spec x hx).1
    obtain ⟨A, hA, hdot⟩ :=
      fmtF_neg_last x.normalize.sign x.normalize.coeff x.normalize.exp hc (by omega)
    have hmod : x.normalize.coeff % 10 ≠ 0 := by omega
    have hlast : (fmtF x.normalize).getLast? = some (Char.ofNat (48 + x.normalize.coeff % 10)) := by
      rw [hA]; simp
    have hne0 : (Char.ofNat (48 + x.normalize.coeff % 10)) ≠ '0' :=
      digit_char_ne_zero (by omega) hmod
    have hnedot : (Char.ofNat (48 + x.normalize.coeff % 10)) ≠ '.' :=
      digit_char_ne_dot (d := x.normalize.coeff % 10) (by omega)
    rw [format_decimal]
    simp only [if_pos hdot]
    rw [dropTrailing_noop (fun ch => ch == '0') (fmtF x.normalize)
        (Char.ofNat (48 + x.normalize.coeff % 10)) hlast (by exact beq_eq_false_iff_ne.mpr hne0),
      dropTrailing_noop (fun ch => ch == '.') (fmtF x.normalize)
        (Char.ofNat (48 + x.normalize.coeff % 10)) hlast (by exact beq_eq_false_iff_ne.mpr hnedot),
      if_neg (fmtF_ne_nil x.normalize.sign x.normalize.coeff x.normalize.exp)]

/-! ## Helper lemmas: parsing back canonical output -/

lemma isDigitDot_of_isDigit {c : Char} (h : c.isDigit = true) : isDigitDot c = true := by
  simp [isDigitDot, h]

lemma neq_bne {c d : Char} (h : c ≠ d) : (c != d) = true := by
  simp [bne_iff_ne, h]

lemma parseDecDigits_all_digits (cs : List Char) (hne : cs ≠ [])
    (hall : ∀ c ∈ cs, c.isDigit = true) :
    parseDecDigits cs = some ⟨false, digitsToNat cs, 0⟩ := by
  have h1 : cs.all isDigitDot = true := by
    rw [List.all_eq_true]
    exact fun c hc => isDigitDot_of_isDigit (hall c hc)
  have h2 : cs.count '.' = 0 := by
    rw [List.count_eq_zero]
    intro hmem
    exact isDigit_ne_dot (hall '.' hmem) rfl
  have h3 : cs.any Char.isDigit = true := by
    rw [List.any_eq_true]
    cases cs with
    | nil => exact absurd rfl hne
    | cons c cs => exact ⟨c, by simp, hall c (by simp)⟩
  have h4 : cs.dropWhile (fun c => c != '.') = [] := by
    rw [List.dropWhile_eq_nil_iff]
    exact fun c hc => neq_bne (isDigit_ne_dot (hall c hc))
  have h5 : cs.filter Char.isDigit = cs :=
    List.filter_eq_self.mpr hall
  rw [parseDecDigits, if_pos ⟨h1, by omega, h3⟩, h4, h5]
  simp

lemma parseDecDigits_with_dot (A B : List Char) (hA : ∀ c ∈ A, c.isDigit = true)
    (hB : ∀ c ∈ B, c.isDigit = true) (hne : A ≠ [] ∨ B ≠ []) :
    parseDecDigits (A ++ '.' :: B) = some ⟨false, digitsToNat (A ++ B), -(B.length : ℤ)⟩ := by
  have hdigA : ∀ c ∈ A, isDigitDot c = true := fun c hc => isDigitDot_of_isDigit (hA c hc)
  have hdigB : ∀ c ∈ B, isDigitDot c = true := fun c hc => isDigitDot_of_isDigit (hB c hc)
  have h1 : (A ++ '.' :: B).all isDigitDot = true := by
    rw [List.all_eq_true]
    intro c hc
    rw [List.mem_append] at hc
    rcases hc with hc | hc
    · exact hdigA c hc
    · rcases List.mem_cons.mp hc with rfl | hc
      · rfl
      · exact hdigB c hc
  have hcA : A.count '.' = 0 := by
    rw [List.count_eq_zero]; intro hmem; exact isDigit_ne_dot (hA '.' hmem) rfl
  have hcB : B.count '.' = 0 := by
    rw [List.count_eq_zero]; intro hmem; exact isDigit_ne_dot (hB '.' hmem) rfl
  have h2 : (A ++ '.' :: B).count '.' = 1 := by
    rw [List.count_append, List.count_cons]
    simp [hcA, hcB]
  have h3 : (A ++ '.' :: B).any Char.isDigit = true := by
    rw [List.any_eq_true]
    rcases hne with h | h
    · cases A with
      | nil => exact absurd rfl h
      | cons a A => exact ⟨a, by simp, hA a (by simp)⟩
    · cases B with
      | nil => exact absurd rfl h
      | cons b B => exact ⟨b, by simp, hB b (by simp)⟩
  have h4 : (A ++ '.' :: B).dropWhile (fun c => c != '.') = '.' :: B := by
    rw [dropWhile_append_all (fun c hc => neq_bne (isDigit_ne_dot (hA c hc))),
      List.dropWhile_cons]
    simp
  have h5 : (A ++ '.' :: B).filter Char.isDigit = A ++ B := by
    rw [List.filter_append, List.filter_eq_self.mpr hA, List.filter_cons,
      List.filter_eq_self.mpr hB]
    simp [Char.isDigit]
  rw [parseDecDigits, if_pos ⟨h1, by omega, h3⟩, h4, h5]
  simp

lemma decOfChars_cons_digit (c : Char) (rest : List Char) (h : c.isDigit = true) :
    decOfChars (c :: rest) = parseDecDigits (c :: rest) := by
  rw [decOfChars]
  rw [if_neg (by simp [isDigit_ne_minus h]), if_neg (by simp [isDigit_ne_plus h])]

lemma decOfChars_neg_digits (body : List Char) :
    decOfChars ('-' :: body) = (parseDecDigits body).map (fun d => ⟨true, d.coeff, d.exp⟩) := by
  rw [decOfChars]
  rw [if_pos (by decide)]

lemma decOf_fmtF_zero (s : Bool) : decOfChars (fmtF ⟨s, 0, 0⟩) = some ⟨s, 0, 0⟩ := by
  cases s <;> decide

lemma digitsToNat_render_append_zeros (c k : ℕ) :
    digitsToNat (natDigitsRender c ++ List.replicate k '0') = c * 10 ^ k := by
  rw [digitsToNat, List.foldl_append]
  rw [show List.foldl (fun a x => 10 * a + (x.toNat - 48)) 0 (natDigitsRender c)
      = digitsToNat (natDigitsRender c) from rfl, digitsToNat_render,
    foldl_digits_replicate_zero]

lemma decOf_fmtF_nonneg (s : Bool) (c : ℕ) (e : ℤ) (_h0 : c ≠ 0) (he : 0 ≤ e) :
    decOfChars (fmtF ⟨s, c, e⟩) = some ⟨s, c * 10 ^ e.toNat, 0⟩ := by
  rw [fmtF_nonneg_eq s c e he]
  have hall : ∀ ch ∈ natDigitsRender c ++ List.replicate e.toNat '0', ch.isDigit = true := by
    intro ch hch
    rw [List.mem_append] at hch
    rcases hch with hch | hch
    · exact natDigitsRender_all_digit c ch hch
    · rw [List.eq_of_mem_replicate hch]; rfl
  have hne : natDigitsRender c ++ List.replicate e.toNat '0' ≠ [] := by
    have := natDigitsRender_ne_nil c
    simp_all
  have hparse : parseDecDigits (natDigitsRender c ++ List.replicate e.toNat '0')
      = some ⟨false, c * 10 ^ e.toNat, 0⟩ := by
    rw [parseDecDigits_all_digits _ hne hall, digitsToNat_render_append_zeros]
  cases s with
  | true =>
    rw [if_pos rfl, List.singleton_append, decOfChars_neg_digits, hparse]
    rfl
  | false =>
    rw [if_neg (by simp), List.nil_append]
    cases hr : natDigitsRender c ++ List.replicate e.toNat '0' with
    | nil => exact absurd hr hne
    | cons b brest =>
      have hbmem : b ∈ natDigitsRender c ++ List.replicate e.toNat '0' := by
        rw [hr]; simp
      have hbd := hall b hbmem
      rw [decOfChars_cons_digit b brest hbd, ← hr]
      exact hparse

lemma decOf_fmtF_neg (s : Bool) (c : ℕ) (e : ℤ) (_h0 : c ≠ 0) (he : e < 0) :
    decOfChars (fmtF ⟨s, c, e⟩) = some ⟨s, c, e⟩ := by
  rw [fmtF_neg_eq s c e he]
  have hnegE : ((-e).toNat : ℤ) = -e := Int.toNat_of_nonneg (by omega)
  by_cases hb : (-e).toNat < (natDigitsRender c).length
  · set j := (natDigitsRender c).length - (-e).toNat with hj
    have hn1 : 1 ≤ (-e).toNat := by omega
    have hjle : j ≤ (natDigitsRender c).length := by omega
    have hA : ∀ ch ∈ (natDigitsRender c).take j, ch.isDigit = true :=
      fun ch hch => natDigitsRender_all_digit c ch (List.take_subset j _ hch)
    have hB : ∀ ch ∈ (natDigitsRender c).drop j, ch.isDigit = true :=
      fun ch hch => natDigitsRender_all_digit c ch (List.drop_subset j _ hch)
    have hAne : (natDigitsRender c).take j ≠ [] := by
      have : ((natDigitsRender c).take j).length = j := by
        rw [List.length_take]; omega
      intro hcon
      rw [hcon] at this
      simp at this
      omega
    have hparse : parseDecDigits ((natDigitsRender c).take j ++ '.' :: (natDigitsRender c).drop j)
        = some ⟨false, c, e⟩ := by
      rw [parseDecDigits_with_dot _ _ hA hB (Or.inl hAne), List.take_append_drop,
        digitsToNat_render]
      have hlen : (((natDigitsRender c).drop j).length : ℤ) = -e := by
        rw [List.length_drop]
        omega
      rw [hlen]
      simp
    rw [if_pos hb]
    cases s with
    | true =>
      rw [if_pos rfl, List.singleton_append, decOfChars_neg_digits, hparse]
      rfl
    | false =>
      rw [if_neg (by simp), List.nil_append]
      cases hr : (natDigitsRender c).take j with
      | nil => exact absurd hr hAne
      | cons b brest =>
        have hbd : b.isDigit = true := hA b (by rw [hr]; simp)
        rw [List.cons_append, decOfChars_cons_digit b (brest ++ '.' :: (natDigitsRender c).drop j) hbd,
          ← List.cons_append, ← hr]
        exact hparse
  · have hzd : ∀ ch ∈ List.replicate ((-e).toNat - (natDigitsRender c).length) '0'
        ++ natDigitsRender c, ch.isDigit = true := by
      intro ch hch
      rw [List.mem_append] at hch
      rcases hch with hch | hch
      · rw [List.eq_of_mem_replicate hch]; rfl
      · exact natDigitsRender_all_digit c ch hch
    have hparse : parseDecDigits (['0'] ++ '.' ::
        (List.replicate ((-e).toNat - (natDigitsRender c).length) '0' ++ natDigitsRender c))
        = some ⟨false, c, e⟩ := by
      rw [parseDecDigits_with_dot _ _ (by intro ch hch; rcases List.mem_singleton.mp hch with rfl; rfl)
        hzd (Or.inl (by simp))]
      have hcoeff : digitsToNat (['0'] ++ (List.replicate ((-e).toNat - (natDigitsRender c).length) '0'
          ++ natDigitsRender c)) = c := by
        rw [digitsToNat, List.foldl_append, List.foldl_append]
        have h1 : List.foldl (fun a x => 10 * a + (x.toNat - 48)) 0 ['0'] = 0 := rfl
        rw [h1, foldl_digits_replicate_zero]
        simpa [digitsToNat] using digitsToNat_render c
      have hlen : ((List.replicate ((-e).toNat - (natDigitsRender c).length) '0'
          ++ natDigitsRender c).length : ℤ) = -e := by
        rw [List.length_append, List.length_replicate]
        omega
      rw [hcoeff, hlen]
      simp
    rw [if_neg hb]
    cases s with
    | true =>
      rw [if_pos rfl, List.singleton_append, decOfChars_neg_digits]
      rw [show ('0' :: '.' :: (List.replicate ((-e).toNat - (natDigitsRender c).length) '0'
        ++ natDigitsRender c)) = ['0'] ++ '.' :: (List.replicate ((-e).toNat
        - (natDigitsRender c).length) '0' ++ natDigitsRender c) from rfl, hparse]
      rfl
    | false =>
      rw [if_neg (by simp), List.nil_append]
      rw [decOfChars_cons_digit '0' _ rfl]
      rw [show ('0' :: '.' :: (List.replicate ((-e).toNat - (natDigitsRender c).length) '0'
        ++ natDigitsRender c)) = ['0'] ++ '.' :: (List.replicate ((-e).toNat
        - (natDigitsRender c).length) '0' ++ natDigitsRender c) from rfl, hparse]

lemma normalize_cases (x : Decimal) :
    (x.normalize.coeff = 0 ∧ x.normalize.exp = 0)
      ∨ (¬ (10 ∣ x.normalize.coeff) ∧ x.normalize.coeff ≠ 0) := by
  by_cases hx : x.coeff = 0
  · left
    rw [decNormalize_zero x hx]
    exact ⟨rfl, rfl⟩
  · right
    exact ⟨(normalize_spec x hx).1, (normalize_spec x hx).2.1⟩

lemma decOf_format_normalize (x : Decimal) :
    ∃ y, decOfChars (fmtF x.normalize) = some y ∧ y.normalize = x.normalize := by
  rcases normalize_cases x with ⟨hc, he⟩ | ⟨h10, hc⟩
  · have hxn : x.normalize = ⟨x.normalize.sign, 0, 0⟩ := by
      rw [← hc, ← he]
    refine ⟨⟨x.normalize.sign, 0, 0⟩, ?_, ?_⟩
    · rw [hxn]
      exact decOf_fmtF_zero x.normalize.sign
    · rw [decNormalize_zero ⟨x.normalize.sign, 0, 0⟩ rfl, hxn]
  · by_cases he : 0 ≤ x.normalize.exp
    · refine ⟨⟨x.normalize.sign, x.normalize.coeff * 10 ^ x.normalize.exp.toNat, 0⟩, ?_, ?_⟩
      · exact decOf_fmtF_nonneg x.normalize.sign x.normalize.coeff x.normalize.exp hc he
      · rw [normalize_mul_pow x.normalize.sign x.normalize.coeff x.normalize.exp.toNat h10 hc,
          Int.toNat_of_nonneg he]
    · refine ⟨⟨x.normalize.sign, x.normalize.coeff, x.normalize.exp⟩, ?_, ?_⟩
      · exact decOf_fmtF_neg x.normalize.sign x.normalize.coeff x.normalize.exp hc (by omega)
      · exact normalize_reduced x.normalize.sign x.normalize.coeff x.normalize.exp h10 hc

lemma fmtF_chars (s : Bool) (c : ℕ) (e : ℤ) :
    ∀ ch ∈ fmtF ⟨s, c, e⟩, ch = '-' ∨ ch = '.' ∨ ch.isDigit = true := by
  intro ch hch
  by_cases he : 0 ≤ e
  · rw [fmtF_nonneg_eq s c e he, List.mem_append, List.mem_append] at hch
    rcases hch with hch | hch | hch
    ·
      by_cases hs : s = true
      · rw [if_pos hs] at hch
        left
        simpa using hch
      · rw [if_neg hs] at hch
        simp at hch
    · exact Or.inr (Or.inr (natDigitsRender_all_digit c ch hch))
    · rw [List.eq_of_mem_replicate hch]
      exact Or.inr (Or.inr rfl)
  · rw [fmtF_neg_eq s c e (by omega), List.mem_append] at hch
    rcases hch with hch | hch
    ·
      by_cases hs : s = true
      · rw [if_pos hs] at hch
        left
        simpa using hch
      · rw [if_neg hs] at hch
        simp at hch
    · by_cases hb : (-e).toNat < (natDigitsRender c).length
      · rw [if_pos hb, List.mem_append, List.mem_cons] at hch
        rcases hch with hch | hch | hch
        · exact Or.inr (Or.inr (natDigitsRender_all_digit c ch (List.take_subset _ _ hch)))
        · exact Or.inr (Or.inl hch)
        · exact Or.inr (Or.inr (natDigitsRender_all_digit c ch (List.drop_subset _ _ hch)))
      · rw [if_neg hb, List.mem_cons, List.mem_cons, List.mem_append] at hch
        rcases hch with hch | hch | hch | hch
        · exact Or.inr (Or.inr (by rw [hch]; rfl))
        · exact Or.inr (Or.inl hch)
        · rw [List.eq_of_mem_replicate hch]
          exact Or.inr (Or.inr rfl)
        · exact Or.inr (Or.inr (natDigitsRender_all_digit c ch hch))

lemma fmtF_zero_last (s : Bool) :
    (fmtF ⟨s, 0, 0⟩).getLast? = some '0' ∧ '.' ∉ fmtF ⟨s, 0, 0⟩ := by
  cases s <;> decide

lemma fmtF_nonneg_last (s : Bool) (c : ℕ) (e : ℤ) (h0 : c ≠ 0) (he : 0 ≤ e) :
    ∃ dch, (fmtF ⟨s, c, e⟩).getLast? = some dch ∧ dch.isDigit = true := by
  rw [fmtF_nonneg_eq s c e he]
  rcases Nat.eq_zero_or_pos e.toNat with h | h
  · obtain ⟨cs0, hcs0⟩ := natDigitsRender_last c h0
    refine ⟨Char.ofNat (48 + c % 10), ?_, digit_char_isDigit (by omega)⟩
    rw [h, hcs0]
    simp
  · obtain ⟨n, hn⟩ : ∃ n, e.toNat = n + 1 := ⟨e.toNat - 1, by omega⟩
    refine ⟨'0', ?_, rfl⟩
    rw [hn, List.replicate_succ']
    simp

lemma format_last_digit (x : Decimal) :
    ∃ dch, (fmtF x.normalize).getLast? = some dch ∧ dch.isDigit = true ∧
      ('.' ∈ fmtF x.normalize → dch ≠ '0') := by
  rcases normalize_cases x with ⟨hc, he⟩ | ⟨h10, hc⟩
  · have hxn : x.normalize = ⟨x.normalize.sign, 0, 0⟩ := by rw [← hc, ← he]
    rw [hxn]
    exact ⟨'0', (fmtF_zero_last x.normalize.sign).1, rfl,
      fun hmem => absurd hmem (fmtF_zero_last x.normalize.sign).2⟩
  · by_cases he : 0 ≤ x.normalize.exp
    · obtain ⟨dch, h1, h2⟩ :=
        fmtF_nonneg_last x.normalize.sign x.normalize.coeff x.normalize.exp hc he
      exact ⟨dch, h1, h2, fun hmem => absurd hmem
        (fmtF_nonneg_no_dot x.normalize.sign x.normalize.coeff x.normalize.exp he)⟩
    · obtain ⟨A, hA, hdot⟩ :=
        fmtF_neg_last x.normalize.sign x.normalize.coeff x.normalize.exp hc (by omega)
      have hmod : x.normalize.coeff % 10 ≠ 0 := by omega
      refine ⟨Char.ofNat (48 + x.normalize.coeff % 10), ?_, digit_char_isDigit (by omega),
        fun _ => digit_char_ne_zero (by omega) hmod⟩
      rw [hA]
      simp

/-- C6 counterexample: the Decimal negative zero (`Decimal("-0")`, modelled
as sign true, coefficient 0, exponent 0) is a zero value, yet
`format_decimal` renders it as `"-0"`, not `"0"` as the claim states. -/
theorem c6_counterexample_negative_zero :
    format_decimal ⟨true, 0, 0⟩ = "-0" ∧ format_decimal ⟨true, 0, 0⟩ ≠ "0" := by
  decide

/-- C6 (amended): `format_decimal` is canonical and idempotent — parsing its
output back and reformatting is the identity; the output consists only of a
sign, digits and at most one dot (hence never scientific notation), is never
empty, never ends with a dot, and has no trailing zero after a dot; a zero
value renders as `"0"` when its sign is positive and as `"-0"` for the
negative zero (the only amendment forced by the counterexample). -/
theorem c6_format_decimal_canonical (x : Decimal) :
    (∃ y, decOfChars (format_decimal x).toList = some y ∧ format_decimal y = format_decimal x)
    ∧ (∀ ch ∈ (format_decimal x).toList, ch = '-' ∨ ch = '.' ∨ ch.isDigit = true)
    ∧ 'e' ∉ (format_decimal x).toList
    ∧ 'E' ∉ (format_decimal x).toList
    ∧ format_decimal x ≠ ""
    ∧ (format_decimal x).toList.getLast? ≠ some '.'
    ∧ ('.' ∈ (format_decimal x).toList → (format_decimal x).toList.getLast? ≠ some '0')
    ∧ (x.coeff = 0 → format_decimal x = if x.sign then "-0" else "0") := by
  have hfd : format_decimal x = ⟨fmtF x.normalize⟩ := format_decimal_eq x
  have htl : (format_decimal x).toList = fmtF x.normalize := by rw [hfd]; rfl
  refine ⟨?_, ?_, ?_, ?_, ?_, ?_, ?_, ?_⟩
  · obtain ⟨y, hy1, hy2⟩ := decOf_format_normalize x
    refine ⟨y, by rw [htl]; exact hy1, ?_⟩
    rw [format_decimal_eq y, hy2, ← hfd]
  · rw [htl]
    exact fmtF_chars x.normalize.sign x.normalize.coeff x.normalize.exp
  · intro hmem
    rcases fmtF_chars x.normalize.sign x.normalize.coeff x.normalize.exp 'e'
      (by rw [← htl]; exact hmem) with h | h | h <;> exact absurd h (by decide)
  · intro hmem
    rcases fmtF_chars x.normalize.sign x.normalize.coeff x.normalize.exp 'E'
      (by rw [← htl]; exact hmem) with h | h | h <;> exact absurd h (by decide)
  · intro h
    rw [hfd] at h
    exact fmtF_ne_nil x.normalize.sign x.normalize.coeff x.normalize.exp
      (congrArg String.data h)
  · obtain ⟨dch, hl, hd, _⟩ := format_last_digit x
    rw [htl, hl]
    intro hcon
    exact isDigit_ne_dot hd (Option.some.inj hcon)
  · intro hdot
    obtain ⟨dch, hl, hd, hnz⟩ := format_last_digit x
    rw [htl, hl]
    intro hcon
    exact hnz (htl ▸ hdot) (Option.some.inj hcon)
  · intro h0
    rw [hfd, decNormalize_zero x h0]
    cases x.sign <;> decide

/-- C6 witness: the amended theorem applied at the negative zero input. -/
theorem c6_format_decimal_canonical_witness :
    format_decimal (⟨true, 0, 0⟩ : Decimal) ≠ ""
    ∧ format_decimal (⟨true, 0, 0⟩ : Decimal) = if true then "-0" else "0" :=
  ⟨(c6_format_decimal_canonical ⟨true, 0, 0⟩).2.2.2.2.1,
    (c6_format_decimal_canonical ⟨true, 0, 0⟩).2.2.2.2.2.2.2 rfl⟩

/-! ## Helper lemmas: tokenizer output shape -/

lemma flatPairs_cons (c : Char) (d : Decimal) (ps : List (Char × Decimal)) :
    flatPairs ((c, d) :: ps) = Token.op c :: Token.num d :: flatPairs ps := by
  simp [flatPairs]

lemma tokenizeFuel_shape : ∀ (fuel : ℕ) (cs : List Char) (acc : List Token) (en : Bool)
    (sign : ℤ) (out : List Token), tokenizeFuel fuel cs acc en sign = .ok out →
    (en = true → ∃ d ps, out = acc.reverse ++ Token.num d :: flatPairs ps
      ∧ ∀ p ∈ ps, p.1 ∈ OPS)
    ∧ (en = false → ∃ ps, out = acc.reverse ++ flatPairs ps ∧ ∀ p ∈ ps, p.1 ∈ OPS) := by
  intro fuel
  induction fuel with
  | zero =>
    intro cs acc en sign out h
    exact absurd h (by simp [tokenizeFuel])
  | succ f ih =>
    intro cs acc en sign out h
    cases cs with
    | nil =>
      rw [tokenizeFuel] at h
      cases en with
      | true => simp at h
      | false =>
        simp only [Bool.false_eq_true, if_false] at h
        refine ⟨fun hcon => absurd hcon (by decide), fun _ => ⟨[], ?_, by simp⟩⟩
        injection h with h
        rw [← h]
        simp [flatPairs]
    | cons c cs' =>
      rw [tokenizeFuel] at h
      by_cases hsp : isPySpace c
      · rw [if_pos hsp] at h
        exact ih cs' acc en sign out h
      · rw [if_neg hsp] at h
        cases en with
        | false =>
          simp only [Bool.false_eq_true, if_false] at h
          by_cases hop : c ∈ OPS
          · rw [if_pos hop] at h
            obtain ⟨d, ps, hout, hops⟩ :=
              (ih cs' (Token.op c :: acc) true sign out h).1 rfl
            refine ⟨fun hcon => absurd hcon (by decide), fun _ => ⟨(c, d) :: ps, ?_, ?_⟩⟩
            · rw [hout, flatPairs_cons, List.reverse_cons, List.append_assoc]
              rfl
            · intro p hp
              rcases List.mem_cons.mp hp with rfl | hp
              · exact hop
              · exact hops p hp
          · rw [if_neg hop] at h
            simp at h
        | true =>
          simp only [if_true] at h
          by_cases hsgn : ((c == '+' || c == '-') && acc.isEmpty) = true
          · rw [if_pos hsgn] at h
            exact ih cs' acc true _ out h
          · rw [if_neg hsgn] at h
            by_cases hdd : isDigitDot c
            · rw [if_pos hdd] at h
              cases hp : parseDecDigits (c :: List.takeWhile isDigitDot cs') with
              | none =>
                rw [hp] at h
                simp at h
              | some v =>
                rw [hp] at h
                simp only [] at h
                obtain ⟨ps, hout, hops⟩ :=
                  (ih (cs'.dropWhile isDigitDot) (Token.num (mulSign v sign) :: acc)
                    false 1 out h).2 rfl
                refine ⟨fun _ => ⟨mulSign v sign, ps, ?_, hops⟩,
                  fun hcon => absurd hcon (by decide)⟩
                rw [hout, List.reverse_cons, List.append_assoc]
                rfl
            · rw [if_neg hdd] at h
              simp at h

lemma parseSteps_flatPairs (ps : List (Char × Decimal)) (hops : ∀ p ∈ ps, p.1 ∈ OPS) :
    parseSteps (flatPairs ps) = some (ps.map stepOfPair) := by
  induction ps with
  | nil => rfl
  | cons p ps ih =>
    obtain ⟨c, d⟩ := p
    have hc : c ∈ OPS := hops (c, d) (by simp)
    have ihv := ih (fun q hq => hops q (List.mem_cons_of_mem _ hq))
    simp only [OPS, List.mem_cons, List.not_mem_nil, or_false] at hc
    rcases hc with rfl | rfl | rfl | rfl <;>
      · rw [flatPairs_cons]
        show (parseSteps (flatPairs ps)).map _ = _
        rw [ihv]
        rfl

lemma foldl_steps_eval (ps : List (Char × Decimal)) (hops : ∀ p ∈ ps, p.1 ∈ OPS) :
    ∀ v : ℚ, (ps.map stepOfPair).foldl (fun v s => applyOp s.operation v s.operand.toRat) v
      = evalTokensAux v (flatPairs ps) := by
  induction ps with
  | nil => intro v; rfl
  | cons p ps ih =>
    intro v
    obtain ⟨c, d⟩ := p
    have hc : c ∈ OPS := hops (c, d) (by simp)
    have ihv := ih (fun q hq => hops q (List.mem_cons_of_mem _ hq))
    simp only [OPS, List.mem_cons, List.not_mem_nil, or_false] at hc
    rcases hc with rfl | rfl | rfl | rfl <;>
      · rw [flatPairs_cons]
        exact ihv _

/-- C1: for every expression accepted by the fallback tokenizer,
`_fallback_parse` returns a plan whose initial value is the first number
token and whose steps are, in order, one (operation, operand) pair per
operator / number pair with `+`, `-`, `*`, `/` mapped to `add`, `sub`,
`mul`, `div`; executing the plan left to right equals direct sequential
left-to-right evaluation of the token sequence. -/
theorem c1_fallback_roundtrip (expression : String) (tokens : List Token)
    (h : tokenize_expression expression = .ok tokens) :
    ∃ (first : Decimal) (pairs : List (Char × Decimal)),
      tokens = Token.num first :: flatPairs pairs
      ∧ (∀ p ∈ pairs, p.1 ∈ OPS)
      ∧ fallback_parse expression = some ⟨first, pairs.map stepOfPair⟩
      ∧ opKey '+' = some "add" ∧ opKey '-' = some "sub"
      ∧ opKey '*' = some "mul" ∧ opKey '/' = some "div"
      ∧ (∀ p ∈ pairs, some (stepOfPair p).operation = opKey p.1
          ∧ (stepOfPair p).operand = p.2)
      ∧ run_plan ⟨first, pairs.map stepOfPair⟩ = eval_tokens tokens := by
  obtain ⟨d, ps, hout, hops⟩ :=
    (tokenizeFuel_shape (expression.length + 1) expression.toList [] true 1 tokens h).1 rfl
  rw [List.reverse_nil, List.nil_append] at hout
  refine ⟨d, ps, hout, hops, ?_, rfl, rfl, rfl, rfl, ?_, ?_⟩
  · rw [fallback_parse, h, hout]
    show (parseSteps (flatPairs ps)).map _ = _
    rw [parseSteps_flatPairs ps hops]
    rfl
  · intro p hp
    have hc : p.1 ∈ OPS := hops p hp
    obtain ⟨c, dd⟩ := p
    simp only [OPS, List.mem_cons, List.not_mem_nil, or_false] at hc
    rcases hc with rfl | rfl | rfl | rfl <;> simp [stepOfPair, opKey]
  · rw [hout, run_plan, eval_tokens]
    exact foldl_steps_eval ps hops d.toRat

/-- C1 witness: the round-trip theorem applied to `"10 - 3 + 2"`, whose
token list and fallback plan are computed concretely. -/
theorem c1_fallback_roundtrip_witness :
    fallback_parse "10 - 3 + 2"
      = some ⟨⟨false, 10, 0⟩, [⟨"sub", ⟨false, 3, 0⟩⟩, ⟨"add", ⟨false, 2, 0⟩⟩]⟩
    ∧ ∃ (first : Decimal) (pairs : List (Char × Decimal)),
      [Token.num ⟨false, 10, 0⟩, Token.op '-', Token.num ⟨false, 3, 0⟩,
          Token.op '+', Token.num ⟨false, 2, 0⟩]
        = Token.num first :: flatPairs pairs
      ∧ (∀ p ∈ pairs, p.1 ∈ OPS)
      ∧ fallback_parse "10 - 3 + 2" = some ⟨first, pairs.map stepOfPair⟩
      ∧ opKey '+' = some "add" ∧ opKey '-' = some "sub"
      ∧ opKey '*' = some "mul" ∧ opKey '/' = some "div"
      ∧ (∀ p ∈ pairs, some (stepOfPair p).operation = opKey p.1
          ∧ (stepOfPair p).operand = p.2)
      ∧ run_plan ⟨first, pairs.map stepOfPair⟩
          = eval_tokens [Token.num ⟨false, 10, 0⟩, Token.op '-', Token.num ⟨false, 3, 0⟩,
              Token.op '+', Token.num ⟨false, 2, 0⟩] :=
  ⟨by decide,
    c1_fallback_roundtrip "10 - 3 + 2"
      [Token.num ⟨false, 10, 0⟩, Token.op '-', Token.num ⟨false, 3, 0⟩,
        Token.op '+', Token.num ⟨false, 2, 0⟩] (by decide)⟩

/-- C7: the malformed expressions `"+"`, `"3 +"`, `"3 ** 2"` and the empty
string make the tokenizer raise (`"Expected number"` where a number is
expected, the trailing-operator error otherwise), `_fallback_parse` returns
no plan for them, and — in general — whenever the tokenizer raises,
`_fallback_parse` returns `none` and `_decompose_with_llm` (with the
structured path already failed) reports a decomposition error instead of
producing a plan. -/
theorem c7_malformed_expressions_fail :
    tokenize_expression "+" = .error "Expression cannot end with an operator"
    ∧ tokenize_expression "3 +" = .error "Expression cannot end with an operator"
    ∧ tokenize_expression "3 ** 2" = .error "Expected number"
    ∧ tokenize_expression "" = .error "Expression cannot end with an operator"
    ∧ fallback_parse "+" = none
    ∧ fallback_parse "3 +" = none
    ∧ fallback_parse "3 ** 2" = none
    ∧ fallback_parse "" = none
    ∧ (∀ expression err, tokenize_expression expression = .error err →
        fallback_parse expression = none)
    ∧ (∀ expression exc, fallback_parse expression = none →
        decompose_with_llm (.error exc) expression
          = .error ("Invalid decomposition response: " ++ exc)) := by
  refine ⟨by decide, by decide, by decide, by decide, by decide, by decide, by decide,
    by decide, ?_, ?_⟩
  · intro expression err h
    rw [fallback_parse, h]
  · intro expression exc h
    rw [decompose_with_llm, h]

/-- C7 witness: the general conjuncts applied at the concrete input `"+"`. -/
theorem c7_malformed_expressions_fail_witness :
    fallback_parse "+" = none
    ∧ decompose_with_llm (.error "bad json") "+"
        = .error ("Invalid decomposition response: " ++ "bad json") :=
  ⟨c7_malformed_expressions_fail.2.2.2.2.2.2.2.2.1 "+"
      "Expression cannot end with an operator" c7_malformed_expressions_fail.1,
    c7_malformed_expressions_fail.2.2.2.2.2.2.2.2.2 "+" "bad json" (by decide)⟩

lemma mkDecompositionStep_some {operation : String} {operand : Decimal}
    {s : DecompositionStep} (h : mkDecompositionStep operation operand = some s) :
    s.operation = operation ∧ validOperation operation = true := by
  rw [mkDecompositionStep] at h
  by_cases hv : validOperation operation = true
  · rw [if_pos hv] at h
    injection h with h
    rw [← h]
    exact ⟨rfl, hv⟩
  · rw [if_neg hv] at h
    exact absurd h (by simp)

lemma validateSteps_valid : ∀ (raws : List RawStep) (ss : List DecompositionStep),
    validateSteps raws = some ss → ∀ s ∈ ss, validOperation s.operation = true := by
  intro raws
  induction raws with
  | nil =>
    intro ss h s hs
    rw [validateSteps] at h
    injection h with h
    rw [← h] at hs
    exact absurd hs (List.not_mem_nil s)
  | cons r raws ih =>
    intro ss h s hs
    rw [validateSteps] at h
    cases hm : mkDecompositionStep r.operation r.operand with
    | none => rw [hm] at h; exact absurd h (by simp)
    | some step =>
      rw [hm] at h
      obtain ⟨t, ht, rfl⟩ := Option.map_eq_some'.mp h
      rcases List.mem_cons.mp hs with rfl | hs
      · obtain ⟨h1, h2⟩ := mkDecompositionStep_some hm
        rw [h1]
        exact h2
      · exact ih t ht s hs

lemma opKey_valid {c : Char} {key : String} (h : opKey c = some key) :
    validOperation key = true := by
  rw [opKey] at h
  by_cases h1 : c == '+'
  · rw [if_pos h1] at h; injection h with h; rw [← h]; rfl
  · rw [if_neg h1] at h
    by_cases h2 : c == '-'
    · rw [if_pos h2] at h; injection h with h; rw [← h]; rfl
    · rw [if_neg h2] at h
      by_cases h3 : c == '*'
      · rw [if_pos h3] at h; injection h with h; rw [← h]; rfl
      · rw [if_neg h3] at h
        by_cases h4 : c == '/'
        · rw [if_pos h4] at h; injection h with h; rw [← h]; rfl
        · rw [if_neg h4] at h; exact absurd h (by simp)

lemma parseSteps_valid : ∀ (n : ℕ) (ts : List Token) (ss : List DecompositionStep),
    ts.length ≤ n → parseSteps ts = some ss → ∀ s ∈ ss, validOperation s.operation = true := by
  intro n
  induction n with
  | zero =>
    intro ts ss hlen h s hs
    have hts : ts = [] := List.length_eq_zero.mp (by omega)
    subst hts
    injection h with h
    rw [← h] at hs
    exact absurd hs (List.not_mem_nil s)
  | succ n ih =>
    intro ts ss hlen h s hs
    cases ts with
    | nil =>
      injection h with h
      rw [← h] at hs
      exact absurd hs (List.not_mem_nil s)
    | cons t0 ts1 =>
      cases t0 with
      | num v => exact absurd h (by simp [parseSteps])
      | op c =>
        cases ts1 with
        | nil => exact absurd h (by simp [parseSteps])
        | cons t1 ts2 =>
          cases t1 with
          | op c2 => exact absurd h (by simp [parseSteps])
          | num d =>
            simp only [parseSteps] at h
            cases hk : opKey c with
            | none => rw [hk] at h; exact absurd h (by simp)
            | some key =>
              rw [hk] at h
              obtain ⟨t, ht, rfl⟩ := Option.map_eq_some'.mp h
              rcases List.mem_cons.mp hs with rfl | hs
              · exact opKey_valid hk
              · refine ih ts2 t ?_ ht s hs
                simp only [List.length_cons] at hlen
                omega

/-- C9: every `DecompositionStep` in existence — built by validating
planner JSON (`validatePlan`) or by the fallback parser — has an operation
among exactly `add`, `sub`, `mul`, `div`, and the validating constructor
succeeds exactly on those four tokens. -/
theorem c9_operation_always_enumerated :
    (∀ raw plan, validatePlan raw = some plan →
      ∀ s ∈ plan.steps, validOperation s.operation = true)
    ∧ (∀ expression plan, fallback_parse expression = some plan →
      ∀ s ∈ plan.steps, validOperation s.operation = true)
    ∧ (∀ operation operand, (∃ s, mkDecompositionStep operation operand = some s)
      ↔ (operation = "add" ∨ operation = "sub" ∨ operation = "mul" ∨ operation = "div")) := by
  refine ⟨?_, ?_, ?_⟩
  · intro raw plan h s hs
    rw [validatePlan] at h
    obtain ⟨t, ht, rfl⟩ := Option.map_eq_some'.mp h
    exact validateSteps_valid raw.steps t ht s hs
  · intro expression plan h s hs
    rw [fallback_parse] at h
    cases htok : tokenize_expression expression with
    | error e => rw [htok] at h; exact absurd h (by simp)
    | ok tokens =>
      rw [htok] at h
      cases tokens with
      | nil => exact absurd h (by simp)
      | cons t0 rest =>
        cases t0 with
        | op c => exact absurd h (by simp)
        | num first =>
          obtain ⟨t, ht, rfl⟩ := Option.map_eq_some'.mp h
          exact parseSteps_valid rest.length rest t (le_refl _) ht s hs
  · intro operation operand
    constructor
    · intro ⟨s, hs⟩
      have := (mkDecompositionStep_some hs).2
      rw [validOperation] at this
      simp only [Bool.or_eq_true, beq_iff_eq] at this
      tauto
    · intro h
      refine ⟨⟨operation, operand⟩, ?_⟩
      rw [mkDecompositionStep, if_pos]
      rw [validOperation]
      rcases h with rfl | rfl | rfl | rfl <;> rfl

/-- C9 witness: the validating constructor accepts `"add"` and rejects
`"pow"`, via the theorem. -/
theorem c9_operation_always_enumerated_witness :
    (∃ s, mkDecompositionStep "add" ⟨false, 1, 0⟩ = some s)
    ∧ ¬ (∃ s, mkDecompositionStep "pow" ⟨false, 1, 0⟩ = some s) :=
  ⟨(c9_operation_always_enumerated.2.2 "add" ⟨false, 1, 0⟩).mpr (Or.inl rfl),
    fun hex => by
      have := (c9_operation_always_enumerated.2.2 "pow" ⟨false, 1, 0⟩).mp hex
      rcases this with h | h | h | h <;> simp at h⟩

lemma tokenizeFuel_signs : ∀ (signs : List Char), (∀ c ∈ signs, c = '+' ∨ c = '-') →
    ∀ (m : ℕ) (rest : List Char) (s : ℤ), 1 ≤ m →
    tokenizeFuel (signs.length + m) (signs ++ rest) [] true s
      = tokenizeFuel m rest [] true
          (signs.foldl (fun _ c => if c == '+' then 1 else -1) s) := by
  intro signs
  induction signs with
  | nil => intro _ m rest s _; simp
  | cons c signs ih =>
    intro hall m rest s hm
    have hc := hall c (by simp)
    have hlen : (c :: signs).length + m = (signs.length + m) + 1 := by
      simp [List.length_cons]
      omega
    rw [hlen, List.cons_append, tokenizeFuel]
    have hsp : isPySpace c = false := by
      rcases hc with rfl | rfl <;> rfl
    rw [if_neg (by simp [hsp]), if_pos rfl]
    have hsgn : ((c == '+' || c == '-') && (([] : List Token)).isEmpty) = true := by
      rcases hc with rfl | rfl <;> rfl
    rw [if_pos hsgn]
    rw [ih (fun x hx => hall x (List.mem_cons_of_mem _ hx)) m rest _ hm]
    rfl

/-- C10: leading sign characters are consumed only while the token list is
still empty, with later signs overwriting earlier ones — a run of leading
`+` / `-` characters tokenizes exactly like its last sign character alone
(so `"+-5"` is the single number `-5`), while a sign written after an
operator is not consumed as a sign and tokenization fails with
`"Expected number"` (e.g. `"3 + -5"`). -/
theorem c10_sign_handling (init : List Char) (lastc : Char) (rest : List Char)
    (hall : ∀ c ∈ init ++ [lastc], c = '+' ∨ c = '-') :
    tokenize_expression ⟨init ++ [lastc] ++ rest⟩ = tokenize_expression ⟨lastc :: rest⟩
    ∧ tokenize_expression "+-5" = .ok [Token.num ⟨true, 5, 0⟩]
    ∧ tokenize_expression "3 + -5" = .error "Expected number" := by
  refine ⟨?_, by decide, by decide⟩
  have h1 : tokenize_expression ⟨init ++ [lastc] ++ rest⟩
      = tokenizeFuel ((init ++ [lastc]).length + (rest.length + 1))
          ((init ++ [lastc]) ++ rest) [] true 1 := by
    rw [tokenize_expression]
    have hL : (String.mk (init ++ [lastc] ++ rest)).length + 1
        = (init ++ [lastc]).length + (rest.length + 1) := by
      show (init ++ [lastc] ++ rest).length + 1 = _
      simp [List.length_append]
      omega
    rw [hL]
    rfl
  have h2 : tokenize_expression ⟨lastc :: rest⟩
      = tokenizeFuel (([lastc]).length + (rest.length + 1)) ([lastc] ++ rest) [] true 1 := by
    rw [tokenize_expression]
    have hL : (String.mk (lastc :: rest)).length + 1
        = ([lastc]).length + (rest.length + 1) := by
      show (lastc :: rest).length + 1 = _
      simp
      omega
    rw [hL]
    rfl
  rw [h1, h2,
    tokenizeFuel_signs (init ++ [lastc]) hall (rest.length + 1) rest 1 (by omega),
    tokenizeFuel_signs [lastc] (fun c hc => hall c (by simp at hc; simp [hc]))
      (rest.length + 1) rest 1 (by omega)]
  rw [List.foldl_append]
  rfl

/-- C10 witness: the general sign-run conjunct applied to `"+-5"`, plus the
concrete conjuncts. -/
theorem c10_sign_handling_witness :
    tokenize_expression ⟨['+'] ++ ['-'] ++ ['5']⟩ = tokenize_expression ⟨'-' :: ['5']⟩
    ∧ tokenize_expression "+-5" = .ok [Token.num ⟨true, 5, 0⟩] :=
  ⟨(c10_sign_handling ['+'] '-' ['5'] (by decide)).1,
    (c10_sign_handling ['+'] '-' ['5'] (by decide)).2.1⟩

/-! ## C8: the MCP divide tool and zero divisors -/

lemma fixResult_error (sign : Bool) (r : ℕ × ℤ) (e : ArithError)
    (h : fixResult sign r = .error e) : e = .overflow := by
  rw [fixResult] at h
  split at h
  · exact (Except.error.inj h).symm
  · simp at h

lemma fixRound_error (sign : Bool) (c0 : ℕ) (exp0 exp_min : ℤ) (e : ArithError)
    (h : fixRound sign c0 exp0 exp_min = .error e) : e = .overflow :=
  fixResult_error sign _ e h

lemma fix_error_overflow (x : Decimal) (e : ArithError) (h : Decimal.fix x = .error e) :
    e = .overflow := by
  rw [Decimal.fix] at h
  split at h
  · simp at h
  · split at h
    · exact (Except.error.inj h).symm
    · split at h
      · exact fixRound_error _ _ _ _ _ h
      · simp at h

lemma truediv_zero_divisor (a b : Decimal) (hb : b.coeff = 0) :
    Decimal.truediv a b
      = if a.coeff = 0 then .error .invalidOperation else .error .divisionByZero := by
  rw [Decimal.truediv, if_pos hb]

lemma truediv_errors (a b : Decimal) (e : ArithError) (h : Decimal.truediv a b = .error e) :
    (b.coeff = 0 ∧ a.coeff = 0 ∧ e = .invalidOperation)
    ∨ (b.coeff = 0 ∧ ¬ a.coeff = 0 ∧ e = .divisionByZero)
    ∨ (¬ b.coeff = 0 ∧ e = .overflow) := by
  by_cases hb : b.coeff = 0
  · rw [truediv_zero_divisor a b hb] at h
    by_cases ha : a.coeff = 0
    · rw [if_pos ha] at h
      exact Or.inl ⟨hb, ha, (Except.error.inj h).symm⟩
    · rw [if_neg ha] at h
      exact Or.inr (Or.inl ⟨hb, ha, (Except.error.inj h).symm⟩)
  · refine Or.inr (Or.inr ⟨hb, ?_⟩)
    rw [Decimal.truediv, if_neg hb] at h
    split at h
    · exact fix_error_overflow _ _ h
    · exact fix_error_overflow _ _ h

lemma truediv_ok_divisor (q v r : Decimal) (h : Decimal.truediv q v = .ok r) :
    v.coeff ≠ 0 := by
  intro hv
  rw [truediv_zero_divisor q v hv] at h
  split at h <;> simp at h

lemma divideLoop_cons_ok (q v q' : Decimal) (vs : List Decimal)
    (h : Decimal.truediv q v = .ok q') :
    divideLoop q (v :: vs) = divideLoop q' vs := by
  simp only [divideLoop, h]

lemma divideLoop_cons_err (q v : Decimal) (vs : List Decimal) (e : ArithError)
    (h : Decimal.truediv q v = .error e) :
    divideLoop q (v :: vs)
      = if e = .divisionByZero then .error .valueErrorDivByZero else .error e := by
  cases e <;> simp [divideLoop, h]

lemma divideLoop_no_zero : ∀ (vs : List Decimal) (q : Decimal),
    (∀ v ∈ vs, v.coeff ≠ 0) →
    divideLoop q vs ≠ .error .valueErrorDivByZero
      ∧ divideLoop q vs ≠ .error .invalidOperation := by
  intro vs
  induction vs with
  | nil => intro q _; exact ⟨by simp [divideLoop], by simp [divideLoop]⟩
  | cons v vs ih =>
    intro q hall
    have hv : v.coeff ≠ 0 := hall v (List.mem_cons_self v vs)
    cases htd : Decimal.truediv q v with
    | ok q' =>
      rw [divideLoop_cons_ok q v q' vs htd]
      exact ih q' (fun w hw => hall w (List.mem_cons_of_mem _ hw))
    | error e =>
      rw [divideLoop_cons_err q v vs e htd]
      rcases truediv_errors q v e htd with ⟨hb, _, _⟩ | ⟨hb, _, _⟩ | ⟨_, he⟩
      · exact absurd hb hv
      · exact absurd hb hv
      · subst he
        exact ⟨by simp, by simp⟩

lemma divideLoop_invalid_mem : ∀ (vs : List Decimal) (q : Decimal),
    divideLoop q vs = .error .invalidOperation → ∃ v ∈ vs, v.coeff = 0 := by
  intro vs
  induction vs with
  | nil => intro q h; simp [divideLoop] at h
  | cons v vs ih =>
    intro q h
    cases htd : Decimal.truediv q v with
    | ok q' =>
      rw [divideLoop_cons_ok q v q' vs htd] at h
      obtain ⟨w, hw, hwc⟩ := ih q' h
      exact ⟨w, List.mem_cons_of_mem _ hw, hwc⟩
    | error e =>
      rw [divideLoop_cons_err q v vs e htd] at h
      rcases truediv_errors q v e htd with ⟨hb, _, _⟩ | ⟨hb, _, _⟩ | ⟨_, he⟩
      · exact ⟨v, List.mem_cons_self v vs, hb⟩
      · exact ⟨v, List.mem_cons_self v vs, hb⟩
      · subst he
        simp at h

lemma divideLoop_zero_not_ok : ∀ (vs : List Decimal) (q : Decimal),
    (∃ v ∈ vs, v.coeff = 0) → ∀ r, divideLoop q vs ≠ .ok r := by
  intro vs
  induction vs with
  | nil =>
    rintro q ⟨v, hv, _⟩ r
    exact absurd hv (List.not_mem_nil v)
  | cons v vs ih =>
    rintro q ⟨w, hw, hwc⟩ r
    cases htd : Decimal.truediv q v with
    | ok q' =>
      rw [divideLoop_cons_ok q v q' vs htd]
      have hv : v.coeff ≠ 0 := truediv_ok_divisor q v q' htd
      rcases List.mem_cons.mp hw with h | h
      · subst h
        exact absurd hwc hv
      · exact ih q' ⟨w, h, hwc⟩ r
    | error e =>
      rw [divideLoop_cons_err q v vs e htd]
      split <;> simp

lemma divide_cons_two (v0 v1 : Decimal) (rest : List Decimal) :
    divide (v0 :: v1 :: rest) = divideLoop v0 (v1 :: rest) := by
  have he : ensure_operands (v0 :: v1 :: rest) = .ok (v0 :: v1 :: rest) := by
    rw [ensure_operands, if_neg (by simp only [List.length_cons]; omega)]
  simp only [divide, he]

/-- C8 counterexample: `divide([Decimal(0), Decimal(0)])` hits `0 / 0`, which
raises `DivisionUndefined` — an `InvalidOperation` the `except DivisionByZero`
handler does not catch — so the claimed
`ValueError("Division by zero is not allowed")` is not raised there; and the
division-by-zero branch is not the only failure mode on two-or-more-operand
input: `divide([Decimal('1E+999999'), Decimal('1E-999999')])` raises an
uncaught `Overflow` although no operand after the first is zero. -/
theorem c8_counterexample_zero_over_zero :
    divide [⟨false, 0, 0⟩, ⟨false, 0, 0⟩] = .error .invalidOperation
    ∧ divide [⟨false, 0, 0⟩, ⟨false, 0, 0⟩] ≠ .error .valueErrorDivByZero
    ∧ divide [⟨false, 1, 999999⟩, ⟨false, 1, -999999⟩] = .error .overflow
    ∧ (∀ v ∈ [(⟨false, 1, -999999⟩ : Decimal)], v.coeff ≠ 0) := by
  exact ⟨rfl, by decide, by decide, by decide⟩

/-- C8 (amended): with two or more operands, a zero divisor never lets
`divide` return a value, and the error it produces is exact: at a first-step
zero divisor the trapped `DivisionByZero` is caught and re-raised as
`ValueError("Division by zero is not allowed")` when the first operand is
nonzero, while a zero running quotient makes the division raise
`DivisionUndefined` (`InvalidOperation`), which escapes the
`except DivisionByZero` handler; an `InvalidOperation` can only arise from a
zero divisor, and with no zero divisor neither the `ValueError` nor an
`InvalidOperation` is possible (though `Overflow` still is, as the
counterexample shows). -/
theorem c8_divide_zero_divisor (v0 v1 : Decimal) (rest : List Decimal) :
    (v0.coeff ≠ 0 → v1.coeff = 0 →
        divide (v0 :: v1 :: rest) = .error .valueErrorDivByZero)
    ∧ (v0.coeff = 0 → v1.coeff = 0 →
        divide (v0 :: v1 :: rest) = .error .invalidOperation)
    ∧ ((∃ v ∈ v1 :: rest, v.coeff = 0) → ∀ q, divide (v0 :: v1 :: rest) ≠ .ok q)
    ∧ (divide (v0 :: v1 :: rest) = .error .invalidOperation →
        ∃ v ∈ v1 :: rest, v.coeff = 0)
    ∧ ((∀ v ∈ v1 :: rest, v.coeff ≠ 0) →
        divide (v0 :: v1 :: rest) ≠ .error .valueErrorDivByZero
          ∧ divide (v0 :: v1 :: rest) ≠ .error .invalidOperation) := by
  refine ⟨?_, ?_, ?_, ?_, ?_⟩
  · intro h0 h1
    have htd : Decimal.truediv v0 v1 = .error .divisionByZero := by
      rw [truediv_zero_divisor v0 v1 h1, if_neg h0]
    rw [divide_cons_two, divideLoop_cons_err v0 v1 rest _ htd]
    simp
  · intro h0 h1
    have htd : Decimal.truediv v0 v1 = .error .invalidOperation := by
      rw [truediv_zero_divisor v0 v1 h1, if_pos h0]
    rw [divide_cons_two, divideLoop_cons_err v0 v1 rest _ htd]
    simp
  · intro hex q
    rw [divide_cons_two]
    exact divideLoop_zero_not_ok (v1 :: rest) v0 hex q
  · intro h
    rw [divide_cons_two] at h
    exact divideLoop_invalid_mem (v1 :: rest) v0 h
  · intro hall
    rw [divide_cons_two]
    exact divideLoop_no_zero (v1 :: rest) v0 hall

/-- C8 witness: the amended theorem applied to `[1, 0]` (ValueError),
`[0, 0]` (uncaught InvalidOperation) and `[1, 2]` (no zero divisor). -/
theorem c8_divide_zero_divisor_witness :
    divide [⟨false, 1, 0⟩, ⟨false, 0, 0⟩] = .error .valueErrorDivByZero
    ∧ divide [⟨false, 0, 0⟩, ⟨false, 0, 0⟩] = .error .invalidOperation
    ∧ (∀ q, divide [⟨false, 1, 0⟩, ⟨false, 0, 0⟩] ≠ .ok q)
    ∧ (divide [⟨false, 1, 0⟩, ⟨false, 2, 0⟩] ≠ .error .valueErrorDivByZero
        ∧ divide [⟨false, 1, 0⟩, ⟨false, 2, 0⟩] ≠ .error .invalidOperation) :=
  ⟨(c8_divide_zero_divisor ⟨false, 1, 0⟩ ⟨false, 0, 0⟩ []).1 (by decide) rfl,
    (c8_divide_zero_divisor ⟨false, 0, 0⟩ ⟨false, 0, 0⟩ []).2.1 rfl rfl,
    (c8_divide_zero_divisor ⟨false, 1, 0⟩ ⟨false, 0, 0⟩ []).2.2.1
      ⟨⟨false, 0, 0⟩, by decide, rfl⟩,
    (c8_divide_zero_divisor ⟨false, 1, 0⟩ ⟨false, 2, 0⟩ []).2.2.2.2 (by decide)⟩

/-! ## C3: response parsing in the remote operation client -/

lemma find?_reverse_split : ∀ (l : List Message) (p : Message → Bool) (x : Message),
    l.reverse.find? p = some x →
    ∃ pre post, l = pre ++ x :: post ∧ p x = true ∧ ∀ y ∈ post, p y = false := by
  intro l p
  induction l using List.reverseRecOn with
  | nil => intro x h; simp at h
  | append_singleton l a ih =>
    intro x h
    have hrev : (l ++ [a]).reverse = a :: l.reverse := by simp
    rw [hrev] at h
    by_cases hpa : p a = true
    · rw [List.find?_cons_of_pos _ hpa] at h
      injection h with h
      subst h
      exact ⟨l, [], by simp, hpa, by simp⟩
    · rw [List.find?_cons_of_neg _ (by simp [hpa])] at h
      obtain ⟨pre, post, heq, hx, hpost⟩ := ih x h
      refine ⟨pre, post ++ [a], by rw [heq]; simp, hx, ?_⟩
      intro y hy
      rcases List.mem_append.mp hy with hy | hy
      · exact hpost y hy
      · rw [List.mem_singleton.mp hy]
        simpa using hpa

lemma selectMessage_task (t : TaskObj) (m : Message)
    (h : selectMessage (.task t) = some m) :
    (∃ pre post, t.history = pre ++ m :: post ∧ m.role = .agent
      ∧ ∀ m2 ∈ post, m2.role ≠ .agent)
    ∨ ((∀ m2 ∈ t.history, m2.role ≠ .agent) ∧ t.statusMessage = some m) := by
  rw [selectMessage] at h
  cases hf : t.history.reverse.find? (fun m => m.role == Role.agent) with
  | some m0 =>
    rw [hf] at h
    injection h with h
    subst h
    obtain ⟨pre, post, heq, hx, hpost⟩ := find?_reverse_split t.history _ m0 hf
    left
    refine ⟨pre, post, heq, by simpa using hx, ?_⟩
    intro m2 hm2
    have := hpost m2 hm2
    simpa using this
  | none =>
    rw [hf] at h
    right
    refine ⟨?_, h⟩
    intro m2 hm2
    have := List.find?_eq_none.mp hf m2 (List.mem_reverse.mpr hm2)
    simpa using this

lemma searchNum_first : ∀ (cs : List Char) (m : List Char), searchNum cs = some m →
    ∃ i, matchNumAt (cs.drop i) = some m ∧ ∀ j < i, matchNumAt (cs.drop j) = none := by
  intro cs
  induction cs with
  | nil => intro m h; simp [searchNum] at h
  | cons c cs ih =>
    intro m h
    rw [searchNum] at h
    cases hm : matchNumAt (c :: cs) with
    | some m0 =>
      rw [hm] at h
      injection h with h
      subst h
      exact ⟨0, hm, by omega⟩
    | none =>
      rw [hm] at h
      obtain ⟨i, h1, h2⟩ := ih m h
      refine ⟨i + 1, by simpa using h1, ?_⟩
      intro j hj
      cases j with
      | zero => simpa using hm
      | succ j => simpa using h2 j (by omega)

lemma matchFrac_shape (r2 : List Char) :
    matchFrac r2 = []
    ∨ ∃ fd, fd ≠ [] ∧ (∀ c ∈ fd, c.isDigit = true) ∧ matchFrac r2 = '.' :: fd := by
  rw [matchFrac.eq_def]
  split
  · rename_i r3
    by_cases hfd : r3.takeWhile Char.isDigit = []
    · left
      simp [hfd]
    · right
      exact ⟨r3.takeWhile Char.isDigit, hfd, fun c hc => List.mem_takeWhile_imp hc,
        by simp [hfd]⟩
  · exact Or.inl rfl

lemma matchDigits_shape (sg body m : List Char) (h : matchDigits sg body = some m) :
    ∃ ds fr, m = sg ++ ds ++ fr
      ∧ ds ≠ [] ∧ (∀ c ∈ ds, c.isDigit = true)
      ∧ (fr = [] ∨ ∃ fd, fd ≠ [] ∧ (∀ c ∈ fd, c.isDigit = true) ∧ fr = '.' :: fd) := by
  rw [matchDigits] at h
  by_cases hds : body.takeWhile Char.isDigit = []
  · rw [if_pos hds] at h
    exact absurd h (by simp)
  · rw [if_neg hds] at h
    injection h with h
    exact ⟨body.takeWhile Char.isDigit, matchFrac (body.dropWhile Char.isDigit), h.symm,
      hds, fun c hc => List.mem_takeWhile_imp hc,
      matchFrac_shape (body.dropWhile Char.isDigit)⟩

lemma matchNumAt_shape (cs m : List Char) (h : matchNumAt cs = some m) :
    ∃ sg ds fr, m = sg ++ ds ++ fr
      ∧ (sg = [] ∨ sg = ['+'] ∨ sg = ['-'])
      ∧ ds ≠ [] ∧ (∀ c ∈ ds, c.isDigit = true)
      ∧ (fr = [] ∨ ∃ fd, fd ≠ [] ∧ (∀ c ∈ fd, c.isDigit = true) ∧ fr = '.' :: fd) := by
  cases cs with
  | nil =>
    rw [show matchNumAt ([] : List Char) = none from rfl] at h
    exact absurd h (by simp)
  | cons c r =>
    replace h : (if (c == '+' || c == '-') = true then matchDigits [c] r
        else matchDigits [] (c :: r)) = some m := h
    by_cases hsgn : (c == '+' || c == '-') = true
    · rw [if_pos hsgn] at h
      obtain ⟨ds, fr, hm, hds, hdig, hfr⟩ := matchDigits_shape [c] r m h
      refine ⟨[c], ds, fr, hm, ?_, hds, hdig, hfr⟩
      rcases Bool.or_eq_true _ _ |>.mp hsgn with hc | hc
      · exact Or.inr (Or.inl (by rw [beq_iff_eq.mp hc]))
      · exact Or.inr (Or.inr (by rw [beq_iff_eq.mp hc]))
    · rw [if_neg hsgn] at h
      obtain ⟨ds, fr, hm, hds, hdig, hfr⟩ := matchDigits_shape [] (c :: r) m h
      exact ⟨[], ds, fr, by simpa using hm, Or.inl rfl, hds, hdig, hfr⟩

lemma shape_parses (m : List Char)
    (hshape : ∃ sg ds fr, m = sg ++ ds ++ fr
      ∧ (sg = [] ∨ sg = ['+'] ∨ sg = ['-'])
      ∧ ds ≠ [] ∧ (∀ c ∈ ds, c.isDigit = true)
      ∧ (fr = [] ∨ ∃ fd, fd ≠ [] ∧ (∀ c ∈ fd, c.isDigit = true) ∧ fr = '.' :: fd)) :
    ∃ d, decOfChars m = some d := by
  obtain ⟨sg, ds, fr, hm, hsg, hds, hdig, hfr⟩ := hshape
  have hbody : ∃ b, parseDecDigits (ds ++ fr) = some b := by
    rcases hfr with rfl | ⟨fd, hfd1, hfd2, rfl⟩
    · rw [List.append_nil, parseDecDigits_all_digits ds hds hdig]
      exact ⟨_, rfl⟩
    · rw [parseDecDigits_with_dot ds fd hdig hfd2 (Or.inl hds)]
      exact ⟨_, rfl⟩
  obtain ⟨b, hb⟩ := hbody
  rcases hsg with rfl | rfl | rfl
  · rw [List.nil_append] at hm
    subst hm
    cases hd : ds with
    | nil => exact absurd hd hds
    | cons d0 ds' =>
      have hd0 : d0.isDigit = true := hdig d0 (by rw [hd]; simp)
      rw [hd] at hb
      rw [List.cons_append, decOfChars_cons_digit d0 (ds' ++ fr) hd0, ← List.cons_append, hb]
      exact ⟨b, rfl⟩
  · subst hm
    rw [List.singleton_append, List.cons_append]
    rw [show decOfChars ('+' :: (ds ++ fr)) = parseDecDigits (ds ++ fr) from rfl, hb]
    exact ⟨b, rfl⟩
  · subst hm
    rw [List.singleton_append, List.cons_append]
    rw [show decOfChars ('-' :: (ds ++ fr))
        = (parseDecDigits (ds ++ fr)).map (fun d => ⟨true, d.coeff, d.exp⟩) from rfl, hb]
    exact ⟨_, rfl⟩

/-- C3 counterexample: on a task whose history holds an agent message and
whose status carries another, `_extract_decimal` uses the history scan, not
the status message; and within a message text it returns the first
decimal-looking substring, not the last — both contradicting the claim
(whose reading is `extract_decimal_claimed`). -/
theorem c3_counterexample_first_match_history_preference :
    extract_decimal
        (.task ⟨[⟨Role.agent, [.text "7"]⟩], some ⟨Role.agent, [.text "9"]⟩⟩)
      = .ok ⟨false, 7, 0⟩
    ∧ extract_decimal_claimed
        (.task ⟨[⟨Role.agent, [.text "7"]⟩], some ⟨Role.agent, [.text "9"]⟩⟩)
      = .ok ⟨false, 9, 0⟩
    ∧ extract_decimal (.task ⟨[⟨Role.agent, [.text "value 5 then 7"]⟩], none⟩)
      = .ok ⟨false, 5, 0⟩
    ∧ extract_decimal_claimed (.task ⟨[⟨Role.agent, [.text "value 5 then 7"]⟩], none⟩)
      = .ok ⟨false, 7, 0⟩ := by
  decide

/-- C3 (amended): `_extract_decimal` selects the most recent agent-authored
message by scanning the history backwards and falls back to the status
message field only when the history holds no agent message; it parses the
FIRST occurring signed-decimal-looking substring of the concatenated text;
and it returns a value exactly when a message was selected and such a
substring exists (a matched substring always parses as a Decimal). -/
theorem c3_extract_decimal_amended :
    (∀ (t : TaskObj) (m : Message), selectMessage (.task t) = some m →
      (∃ pre post, t.history = pre ++ m :: post ∧ m.role = .agent
        ∧ ∀ m2 ∈ post, m2.role ≠ .agent)
      ∨ ((∀ m2 ∈ t.history, m2.role ≠ .agent) ∧ t.statusMessage = some m))
    ∧ (∀ (cs m : List Char), searchNum cs = some m →
      ∃ i, matchNumAt (cs.drop i) = some m ∧ ∀ j < i, matchNumAt (cs.drop j) = none)
    ∧ (∀ r : SendResult, (∃ d, extract_decimal r = .ok d)
      ↔ ∃ m, selectMessage r = some m
          ∧ searchNum (message_to_text m).toList ≠ none) := by
  refine ⟨selectMessage_task, searchNum_first, ?_⟩
  intro r
  constructor
  · rintro ⟨d, hd⟩
    rw [extract_decimal.eq_def] at hd
    cases hsel : selectMessage r with
    | none =>
      rw [hsel] at hd
      exact absurd hd (by simp)
    | some m =>
      rw [hsel] at hd
      dsimp only [] at hd
      refine ⟨m, rfl, ?_⟩
      cases hsr : searchNum (message_to_text m).toList with
      | none =>
        rw [hsr] at hd
        exact absurd hd (by simp)
      | some mt => simp [hsr]
  · rintro ⟨m, hsel, hsr⟩
    cases hsr2 : searchNum (message_to_text m).toList with
    | none => exact absurd hsr2 hsr
    | some mt =>
      obtain ⟨i, hmi, _⟩ := searchNum_first _ _ hsr2
      obtain ⟨d, hdC⟩ := shape_parses mt (matchNumAt_shape _ _ hmi)
      refine ⟨d, ?_⟩
      rw [extract_decimal.eq_def, hsel]
      dsimp only []
      rw [hsr2]
      dsimp only []
      rw [hdC]

/-- C3 witness: the error-characterization applied to a concrete task whose
selected message contains a number. -/
theorem c3_extract_decimal_amended_witness :
    ∃ m, selectMessage (.task ⟨[⟨Role.agent, [.text "value 5 then 7"]⟩], none⟩) = some m
      ∧ searchNum (message_to_text m).toList ≠ none :=
  (c3_extract_decimal_amended.2.2
      (.task ⟨[⟨Role.agent, [.text "value 5 then 7"]⟩], none⟩)).mp
    ⟨⟨false, 5, 0⟩, by decide⟩

/-! ## C2: remote-call failure during host execution -/

lemma isFinal_send_status_working (hasIds : Bool) (t : String) :
    isFinalEvent (send_status hasIds t .working false) = false := by
  cases hasIds <;> rfl

lemma runSteps_raised : ∀ (steps : List DecompositionStep)
    (env : String → Decimal → Decimal → Except String Decimal) (hasIds : Bool)
    (v : Decimal) (idx : ℕ) (e : String),
    (runSteps env hasIds v idx steps).2.2 = .error e →
    (runSteps env hasIds v idx steps).1.filter isFinalEvent = []
    ∧ (runSteps env hasIds v idx steps).2.1 ≠ []
    ∧ ∃ cs0 c, (runSteps env hasIds v idx steps).2.1 = cs0 ++ [c]
        ∧ env c.operation c.lhs c.rhs = .error e := by
  intro steps
  induction steps with
  | nil =>
    intro env hasIds v idx e h
    simp [runSteps] at h
  | cons step rest ih =>
    intro env hasIds v idx e h
    simp only [runSteps] at h ⊢
    by_cases hv : validOperation step.operation = true
    · rw [if_pos hv] at h ⊢
      cases henv : env step.operation v step.operand with
      | error e2 =>
        rw [henv] at h
        dsimp only [] at h ⊢
        injection h with h
        subst h
        exact ⟨rfl, by simp, [], ⟨step.operation, v, step.operand⟩, by simp, henv⟩
      | ok result =>
        rw [henv] at h
        dsimp only [] at h ⊢
        obtain ⟨h1, h2, cs0, c, h3, h4⟩ := ih env hasIds result (idx + 1) e h
        refine ⟨?_, by simp, ⟨step.operation, v, step.operand⟩ :: cs0, c, by rw [h3, List.cons_append], h4⟩
        rw [List.filter_cons, isFinal_send_status_working]
        exact h1
    · rw [if_neg hv] at h
      dsimp only [] at h
      exact absurd h (by simp)

lemma runSteps_calls_aligned : ∀ (steps : List DecompositionStep)
    (env : String → Decimal → Decimal → Except String Decimal) (hasIds : Bool)
    (v : Decimal) (idx : ℕ),
    (runSteps env hasIds v idx steps).2.1.length ≤ steps.length
    ∧ List.Forall₂ (fun c s => c.operation = s.operation ∧ c.rhs = s.operand)
        (runSteps env hasIds v idx steps).2.1
        (steps.take (runSteps env hasIds v idx steps).2.1.length) := by
  intro steps
  induction steps with
  | nil =>
    intro env hasIds v idx
    simp [runSteps]
  | cons step rest ih =>
    intro env hasIds v idx
    simp only [runSteps]
    by_cases hv : validOperation step.operation = true
    · rw [if_pos hv]
      cases henv : env step.operation v step.operand with
      | error e2 =>
        dsimp only []
        refine ⟨by simp, ?_⟩
        have htake : List.take
            ([(⟨step.operation, v, step.operand⟩ : RemoteCall)] : List RemoteCall).length
            (step :: rest) = [step] := by simp
        rw [htake]
        exact List.Forall₂.cons ⟨rfl, rfl⟩ List.Forall₂.nil
      | ok result =>
        dsimp only []
        obtain ⟨h1, h2⟩ := ih env hasIds result (idx + 1)
        refine ⟨by simp; omega, ?_⟩
        rw [List.length_cons, List.take_succ_cons]
        exact List.Forall₂.cons ⟨rfl, rfl⟩ h2
    · rw [if_neg hv]
      dsimp only []
      exact ⟨by simp, List.Forall₂.nil⟩

lemma execute_ok_raised (env : String → Decimal → Decimal → Except String Decimal)
    (hasIds : Bool) (plan : DecompositionResult) (input : Option String) (e : String)
    (hemp : pyStrip (input.getD "") ≠ "")
    (hr : (runSteps env hasIds plan.initial_value 1 plan.steps).2.2 = .error e) :
    execute env hasIds (.ok plan) input
      = (send_status hasIds ("Planning expression: " ++ pyStrip (input.getD ""))
            .working false
          :: send_status hasIds (String.intercalate "\n"
              ("Plan:" :: ("  start = " ++ format_decimal plan.initial_value)
                :: planLines plan.steps 1)) .working false
          :: (runSteps env hasIds plan.initial_value 1 plan.steps).1,
        (runSteps env hasIds plan.initial_value 1 plan.steps).2.1, .raised e) := by
  simp only [execute]
  rw [if_neg hemp, hr]

/-- C2 counterexample: a one-step plan whose remote add call raises.
`execute` ends with the exception propagating (`.raised`), the remote call
was performed, and no terminal (final) status event is emitted — the
terminal failure status event the claim asserts does not exist, and the run
ends without any final status event. -/
theorem c2_counterexample_no_terminal_failure_event :
    (execute (fun _ _ _ => .error "boom") true
        (.ok ⟨⟨false, 1, 0⟩, [⟨"add", ⟨false, 2, 0⟩⟩]⟩) (some "1 + 2")).2.2
      = .raised "boom"
    ∧ ((execute (fun _ _ _ => .error "boom") true
        (.ok ⟨⟨false, 1, 0⟩, [⟨"add", ⟨false, 2, 0⟩⟩]⟩) (some "1 + 2")).1).filter isFinalEvent
      = []
    ∧ (execute (fun _ _ _ => .error "boom") true
        (.ok ⟨⟨false, 1, 0⟩, [⟨"add", ⟨false, 2, 0⟩⟩]⟩) (some "1 + 2")).2.1
      = [⟨"add", ⟨false, 1, 0⟩, ⟨false, 2, 0⟩⟩] := by
  decide

/-- C2 (amended): if the remote operation client call for some step raises
during `execute`, the exception propagates out of the coroutine
(`.raised`), no terminal status event is emitted — so rather than emitting
a terminal failure status, the run ends with no final status event — the
last call performed is the one that raised, and the calls performed align
one-to-one with a prefix of the plan steps: no step after the failing one
executes. -/
theorem c2_remote_failure_propagates (env : String → Decimal → Decimal → Except String Decimal)
    (hasIds : Bool) (plan : DecompositionResult) (input : Option String) (e : String)
    (hraised : (execute env hasIds (.ok plan) input).2.2 = .raised e) :
    ((execute env hasIds (.ok plan) input).1).filter isFinalEvent = []
    ∧ (execute env hasIds (.ok plan) input).2.1 ≠ []
    ∧ (∃ cs0 c, (execute env hasIds (.ok plan) input).2.1 = cs0 ++ [c]
        ∧ env c.operation c.lhs c.rhs = .error e)
    ∧ (execute env hasIds (.ok plan) input).2.1.length ≤ plan.steps.length
    ∧ List.Forall₂ (fun c s => c.operation = s.operation ∧ c.rhs = s.operand)
        (execute env hasIds (.ok plan) input).2.1
        (plan.steps.take (execute env hasIds (.ok plan) input).2.1.length) := by
  by_cases hemp : pyStrip (input.getD "") = ""
  · rw [execute, if_pos hemp] at hraised
    exact absurd hraised (by simp)
  · simp only [execute] at hraised
    rw [if_neg hemp] at hraised
    cases hrun : (runSteps env hasIds plan.initial_value 1 plan.steps).2.2 with
    | ok o =>
      rw [hrun] at hraised
      cases o with
      | some current =>
        dsimp only [] at hraised
        exact absurd hraised (by simp)
      | none =>
        dsimp only [] at hraised
        exact absurd hraised (by simp)
    | error e2 =>
      rw [hrun] at hraised
      dsimp only [] at hraised
      injection hraised with he
      subst he
      have hred := execute_ok_raised env hasIds plan input e2 hemp hrun
      rw [hred]
      obtain ⟨hf, hne, cs0, c, hlast, henvc⟩ :=
        runSteps_raised plan.steps env hasIds plan.initial_value 1 e2 hrun
      obtain ⟨hlen, hal⟩ := runSteps_calls_aligned plan.steps env hasIds plan.initial_value 1
      refine ⟨?_, hne, ⟨cs0, c, hlast, henvc⟩, hlen, hal⟩
      simp only [List.filter_cons, isFinal_send_status_working, Bool.false_eq_true,
        if_false]
      exact hf

/-- C2 witness: the amended theorem applied to the concrete one-step plan
whose remote call raises. -/
theorem c2_remote_failure_propagates_witness :
    ((execute (fun _ _ _ => .error "boom") true
        (.ok ⟨⟨false, 1, 0⟩, [⟨"add", ⟨false, 2, 0⟩⟩]⟩) (some "1 + 2")).1).filter isFinalEvent
      = []
    ∧ (execute (fun _ _ _ => .error "boom") true
        (.ok ⟨⟨false, 1, 0⟩, [⟨"add", ⟨false, 2, 0⟩⟩]⟩) (some "1 + 2")).2.1 ≠ []
    ∧ (∃ cs0 c, (execute (fun _ _ _ => .error "boom") true
          (.ok ⟨⟨false, 1, 0⟩, [⟨"add", ⟨false, 2, 0⟩⟩]⟩) (some "1 + 2")).2.1 = cs0 ++ [c]
        ∧ (fun (_ : String) (_ : Decimal) (_ : Decimal) =>
            (.error "boom" : Except String Decimal)) c.operation c.lhs c.rhs
          = .error "boom")
    ∧ (execute (fun _ _ _ => .error "boom") true
          (.ok ⟨⟨false, 1, 0⟩, [⟨"add", ⟨false, 2, 0⟩⟩]⟩) (some "1 + 2")).2.1.length
        ≤ (⟨⟨false, 1, 0⟩, [⟨"add", ⟨false, 2, 0⟩⟩]⟩ : DecompositionResult).steps.length
    ∧ List.Forall₂ (fun c s => c.operation = s.operation ∧ c.rhs = s.operand)
        (execute (fun _ _ _ => .error "boom") true
          (.ok ⟨⟨false, 1, 0⟩, [⟨"add", ⟨false, 2, 0⟩⟩]⟩) (some "1 + 2")).2.1
        ((⟨⟨false, 1, 0⟩, [⟨"add", ⟨false, 2, 0⟩⟩]⟩ : DecompositionResult).steps.take
          (execute (fun _ _ _ => .error "boom") true
            (.ok ⟨⟨false, 1, 0⟩, [⟨"add", ⟨false, 2, 0⟩⟩]⟩) (some "1 + 2")).2.1.length) :=
  c2_remote_failure_propagates (fun _ _ _ => .error "boom") true
    ⟨⟨false, 1, 0⟩, [⟨"add", ⟨false, 2, 0⟩⟩]⟩ (some "1 + 2") "boom" (by decide)

/-! ## C4 and C5: experiment lifecycle and environment restoration -/

lemma restore_fold_eval : ∀ (ov : List (String × Option String))
    (e : String → Option String) (k : String),
    (ov.reverse.foldl (fun e kv => fun q => if q = kv.1 then kv.2 else e q) e) k
      = match ov.find? (fun kv => kv.1 == k) with
        | some kv => kv.2
        | none => e k := by
  intro ov
  induction ov with
  | nil => intro e k; rfl
  | cons kv ov ih =>
    intro e k
    rw [List.reverse_cons, List.foldl_append]
    simp only [List.foldl_cons, List.foldl_nil, List.find?_cons]
    by_cases hbeq : (kv.1 == k) = true
    · rw [hbeq]
      dsimp only []
      rw [if_pos (beq_iff_eq.mp hbeq).symm]
    · rw [Bool.not_eq_true] at hbeq
      rw [hbeq]
      dsimp only []
      rw [if_neg (fun hcon => by simp [hcon] at hbeq)]
      exact ih e k

lemma envInv_set_env (base : String → Option String) (st : ExpState) (key v : String)
    (h1 : ∀ kv ∈ st.envOverrides, kv.2 = base kv.1)
    (h2 : ∀ k, st.envOverrides.find? (fun kv => kv.1 == k) = none → st.environ k = base k) :
    (∀ kv ∈ (set_env st key v).envOverrides, kv.2 = base kv.1)
    ∧ (∀ k, (set_env st key v).envOverrides.find? (fun kv => kv.1 == k) = none →
        (set_env st key v).environ k = base k) := by
  by_cases hrec : ((st.envOverrides.map Prod.fst).contains key) = true
  · constructor
    · intro kv hkv
      rw [set_env] at hkv
      dsimp only [] at hkv
      rw [if_pos hrec] at hkv
      exact h1 kv hkv
    · intro k hfind
      rw [set_env] at hfind ⊢
      dsimp only [] at hfind ⊢
      rw [if_pos hrec] at hfind
      have hk : k ≠ key := by
        intro hcon
        subst hcon
        obtain ⟨a, ha, hab⟩ := List.contains_iff_exists_mem_beq.mp hrec
        obtain ⟨kv2, hkv2, rfl⟩ := List.mem_map.mp ha
        have hka : kv2.1 = k := (beq_iff_eq.mp hab).symm
        have := List.find?_eq_none.mp hfind kv2 hkv2
        simp [hka] at this
      rw [if_neg hk]
      exact h2 k hfind
  · constructor
    · intro kv hkv
      rw [set_env] at hkv
      dsimp only [] at hkv
      rw [if_neg hrec] at hkv
      rcases List.mem_append.mp hkv with hkv | hkv
      · exact h1 kv hkv
      · rw [List.mem_singleton.mp hkv]
        refine h2 key ?_
        rw [List.find?_eq_none]
        intro kv2 hkv2
        intro hcon
        apply hrec
        rw [List.contains_iff_exists_mem_beq]
        exact ⟨kv2.1, List.mem_map_of_mem _ hkv2, beq_iff_eq.mpr (beq_iff_eq.mp hcon).symm⟩
    · intro k hfind
      rw [set_env] at hfind ⊢
      dsimp only [] at hfind ⊢
      rw [if_neg hrec] at hfind
      have hsplit := List.find?_eq_none.mp hfind
      have hk : k ≠ key := by
        intro hcon
        subst hcon
        have := hsplit (k, st.environ k) (by simp)
        simp at this
      rw [if_neg hk]
      refine h2 k ?_
      rw [List.find?_eq_none]
      intro kv2 hkv2
      exact hsplit kv2 (List.mem_append_left _ hkv2)

lemma envInv_restore (base : String → Option String) (st : ExpState)
    (h1 : ∀ kv ∈ st.envOverrides, kv.2 = base kv.1)
    (h2 : ∀ k, st.envOverrides.find? (fun kv => kv.1 == k) = none → st.environ k = base k) :
    ∀ k, (restore_env st).environ k = base k := by
  intro k
  rw [restore_env]
  dsimp only []
  rw [restore_fold_eval]
  cases hf : st.envOverrides.find? (fun kv => kv.1 == k) with
  | some kv =>
    dsimp only []
    obtain ⟨hmem, hpk⟩ := And.intro (List.mem_of_find?_eq_some hf) (List.find?_some hf)
    rw [h1 kv hmem, beq_iff_eq.mp hpk]
  | none =>
    dsimp only []
    exact h2 k hf

lemma envInv_set_env_chain : ∀ (kvs : List (String × String)) (base : String → Option String)
    (st : ExpState),
    (∀ kv ∈ st.envOverrides, kv.2 = base kv.1) →
    (∀ k, st.envOverrides.find? (fun kv => kv.1 == k) = none → st.environ k = base k) →
    (∀ kv ∈ (kvs.foldl (fun s kv => set_env s kv.1 kv.2) st).envOverrides, kv.2 = base kv.1)
    ∧ (∀ k, (kvs.foldl (fun s kv => set_env s kv.1 kv.2) st).envOverrides.find?
          (fun kv => kv.1 == k) = none →
        (kvs.foldl (fun s kv => set_env s kv.1 kv.2) st).environ k = base k) := by
  intro kvs
  induction kvs with
  | nil => intro base st h1 h2; exact ⟨h1, h2⟩
  | cons kv kvs ih =>
    intro base st h1 h2
    obtain ⟨h1', h2'⟩ := envInv_set_env base st kv.1 kv.2 h1 h2
    exact ih base (set_env st kv.1 kv.2) h1' h2'

lemma set_env_fields (st : ExpState) (key v : String) :
    (set_env st key v).started = st.started
    ∧ (set_env st key v).handles = st.handles
    ∧ (set_env st key v).hostClient = st.hostClient := by
  rw [set_env]
  exact ⟨rfl, rfl, rfl⟩

lemma restore_env_fields (st : ExpState) :
    (restore_env st).started = st.started
    ∧ (restore_env st).handles = st.handles
    ∧ (restore_env st).hostClient = st.hostClient
    ∧ (restore_env st).envOverrides = [] := by
  rw [restore_env]
  exact ⟨rfl, rfl, rfl, rfl⟩

lemma foldl_set_env_fields : ∀ (kvs : List (String × String)) (st : ExpState),
    (kvs.foldl (fun s kv => set_env s kv.1 kv.2) st).started = st.started
    ∧ (kvs.foldl (fun s kv => set_env s kv.1 kv.2) st).handles = st.handles
    ∧ (kvs.foldl (fun s kv => set_env s kv.1 kv.2) st).hostClient = st.hostClient := by
  intro kvs
  induction kvs with
  | nil => intro st; exact ⟨rfl, rfl, rfl⟩
  | cons kv kvs ih =>
    intro st
    obtain ⟨ha, hb, hc⟩ := ih (set_env st kv.1 kv.2)
    obtain ⟨hd, he, hf⟩ := set_env_fields st kv.1 kv.2
    exact ⟨ha.trans hd, hb.trans he, hc.trans hf⟩

lemma start_key_missing (cfg : ExperimentConfig) (upOk : String → Bool) (st : ExpState)
    (hstarted : st.started = false)
    (hkey : truthyOpt cfg.llm_api_key = false ∧ truthyOpt (st.environ "LLM_API_KEY") = false) :
    Experiment.start cfg upOk st = (st, [], true) := by
  rw [Experiment.start, if_neg (by simp [hstarted]), if_pos hkey]

lemma start_fail_props (cfg : ExperimentConfig) (upOk : String → Bool) (st : ExpState)
    (hstarted : st.started = false) (hov : st.envOverrides = [])
    (hkey : ¬(truthyOpt cfg.llm_api_key = false ∧ truthyOpt (st.environ "LLM_API_KEY") = false))
    (hfail : (bringUp upOk serverNames).2.2 = false) :
    (Experiment.start cfg upOk st).2.2 = true
    ∧ (Experiment.start cfg upOk st).1.started = false
    ∧ (Experiment.start cfg upOk st).1.handles = st.handles
    ∧ (Experiment.start cfg upOk st).1.hostClient = st.hostClient
    ∧ (Experiment.start cfg upOk st).1.envOverrides = []
    ∧ (∀ k, (Experiment.start cfg upOk st).1.environ k = st.environ k)
    ∧ (Experiment.start cfg upOk st).2.1
        = (bringUp upOk serverNames).2.1
          ++ ((bringUp upOk serverNames).1.reverse.map LifecycleAction.serverStopped) := by
  have h1 : ∀ kv ∈ st.envOverrides, kv.2 = st.environ kv.1 := by rw [hov]; simp
  have h2 : ∀ k, st.envOverrides.find? (fun kv => kv.1 == k) = none →
      st.environ k = st.environ k := fun _ _ => rfl
  simp only [Experiment.start]
  rw [if_neg (by simp [hstarted]), if_neg hkey]
  by_cases htr : truthyOpt cfg.llm_api_key = true
  · rw [if_pos htr, if_neg (by simp [hfail])]
    refine ⟨rfl, ?_, ?_, ?_, ?_, ?_, rfl⟩
    · exact ((restore_env_fields _).1).trans
        (((foldl_set_env_fields
          [("LLM_API_KEY", cfg.llm_api_key.getD ""), ("LLM_MODEL", cfg.llm_model),
          ("MCP_SERVER_URL", "http://" ++ cfg.host ++ ":" ++ toString cfg.mcp_port ++ "/mcp"),
          ("ADDITION_AGENT_URL", "http://" ++ cfg.host ++ ":" ++ toString cfg.addition_port),
          ("SUBTRACTION_AGENT_URL", "http://" ++ cfg.host ++ ":" ++ toString cfg.subtraction_port),
          ("A2A_HOST_PUBLIC_URL", "http://" ++ cfg.host ++ ":" ++ toString cfg.host_port)] st).1).trans hstarted)
    · exact ((restore_env_fields _).2.1).trans
        ((foldl_set_env_fields
          [("LLM_API_KEY", cfg.llm_api_key.getD ""), ("LLM_MODEL", cfg.llm_model),
          ("MCP_SERVER_URL", "http://" ++ cfg.host ++ ":" ++ toString cfg.mcp_port ++ "/mcp"),
          ("ADDITION_AGENT_URL", "http://" ++ cfg.host ++ ":" ++ toString cfg.addition_port),
          ("SUBTRACTION_AGENT_URL", "http://" ++ cfg.host ++ ":" ++ toString cfg.subtraction_port),
          ("A2A_HOST_PUBLIC_URL", "http://" ++ cfg.host ++ ":" ++ toString cfg.host_port)] st).2.1)
    · exact ((restore_env_fields _).2.2.1).trans
        ((foldl_set_env_fields
          [("LLM_API_KEY", cfg.llm_api_key.getD ""), ("LLM_MODEL", cfg.llm_model),
          ("MCP_SERVER_URL", "http://" ++ cfg.host ++ ":" ++ toString cfg.mcp_port ++ "/mcp"),
          ("ADDITION_AGENT_URL", "http://" ++ cfg.host ++ ":" ++ toString cfg.addition_port),
          ("SUBTRACTION_AGENT_URL", "http://" ++ cfg.host ++ ":" ++ toString cfg.subtraction_port),
          ("A2A_HOST_PUBLIC_URL", "http://" ++ cfg.host ++ ":" ++ toString cfg.host_port)] st).2.2)
    · exact (restore_env_fields _).2.2.2
    · have hinv := envInv_set_env_chain
        [("LLM_API_KEY", cfg.llm_api_key.getD ""), ("LLM_MODEL", cfg.llm_model),
          ("MCP_SERVER_URL", "http://" ++ cfg.host ++ ":" ++ toString cfg.mcp_port ++ "/mcp"),
          ("ADDITION_AGENT_URL", "http://" ++ cfg.host ++ ":" ++ toString cfg.addition_port),
          ("SUBTRACTION_AGENT_URL", "http://" ++ cfg.host ++ ":" ++ toString cfg.subtraction_port),
          ("A2A_HOST_PUBLIC_URL", "http://" ++ cfg.host ++ ":" ++ toString cfg.host_port)]
        st.environ st h1 h2
      simp only [List.foldl_cons, List.foldl_nil] at hinv
      exact fun k => envInv_restore st.environ _ hinv.1 hinv.2 k
  · rw [if_neg htr, if_neg (by simp [hfail])]
    refine ⟨rfl, ?_, ?_, ?_, ?_, ?_, rfl⟩
    · exact ((restore_env_fields _).1).trans
        (((foldl_set_env_fields
          [("LLM_MODEL", cfg.llm_model),
          ("MCP_SERVER_URL", "http://" ++ cfg.host ++ ":" ++ toString cfg.mcp_port ++ "/mcp"),
          ("ADDITION_AGENT_URL", "http://" ++ cfg.host ++ ":" ++ toString cfg.addition_port),
          ("SUBTRACTION_AGENT_URL", "http://" ++ cfg.host ++ ":" ++ toString cfg.subtraction_port),
          ("A2A_HOST_PUBLIC_URL", "http://" ++ cfg.host ++ ":" ++ toString cfg.host_port)] st).1).trans hstarted)
    · exact ((restore_env_fields _).2.1).trans
        ((foldl_set_env_fields
          [("LLM_MODEL", cfg.llm_model),
          ("MCP_SERVER_URL", "http://" ++ cfg.host ++ ":" ++ toString cfg.mcp_port ++ "/mcp"),
          ("ADDITION_AGENT_URL", "http://" ++ cfg.host ++ ":" ++ toString cfg.addition_port),
          ("SUBTRACTION_AGENT_URL", "http://" ++ cfg.host ++ ":" ++ toString cfg.subtraction_port),
          ("A2A_HOST_PUBLIC_URL", "http://" ++ cfg.host ++ ":" ++ toString cfg.host_port)] st).2.1)
    · exact ((restore_env_fields _).2.2.1).trans
        ((foldl_set_env_fields
          [("LLM_MODEL", cfg.llm_model),
          ("MCP_SERVER_URL", "http://" ++ cfg.host ++ ":" ++ toString cfg.mcp_port ++ "/mcp"),
          ("ADDITION_AGENT_URL", "http://" ++ cfg.host ++ ":" ++ toString cfg.addition_port),
          ("SUBTRACTION_AGENT_URL", "http://" ++ cfg.host ++ ":" ++ toString cfg.subtraction_port),
          ("A2A_HOST_PUBLIC_URL", "http://" ++ cfg.host ++ ":" ++ toString cfg.host_port)] st).2.2)
    · exact (restore_env_fields _).2.2.2
    · have hinv := envInv_set_env_chain
        [("LLM_MODEL", cfg.llm_model),
          ("MCP_SERVER_URL", "http://" ++ cfg.host ++ ":" ++ toString cfg.mcp_port ++ "/mcp"),
          ("ADDITION_AGENT_URL", "http://" ++ cfg.host ++ ":" ++ toString cfg.addition_port),
          ("SUBTRACTION_AGENT_URL", "http://" ++ cfg.host ++ ":" ++ toString cfg.subtraction_port),
          ("A2A_HOST_PUBLIC_URL", "http://" ++ cfg.host ++ ":" ++ toString cfg.host_port)]
        st.environ st h1 h2
      simp only [List.foldl_cons, List.foldl_nil] at hinv
      exact fun k => envInv_restore st.environ _ hinv.1 hinv.2 k

lemma bringUp_first_fail (upOk : String → Bool) (i : ℕ) (hi : i < 4)
    (hfail : upOk (serverNames.getD i "") = false)
    (hpre : ∀ j, j < i → upOk (serverNames.getD j "") = true) :
    bringUp upOk serverNames
      = (serverNames.take i,
        (serverNames.take i).map LifecycleAction.serverStarted
          ++ [LifecycleAction.serverStartFailed (serverNames.getD i "")], false) := by
  interval_cases i
  · have hf : upOk "mcp" = false := hfail
    simp [bringUp, serverNames, hf]
  · have h0 : upOk "mcp" = true := hpre 0 (by omega)
    have hf : upOk "addition" = false := hfail
    simp [bringUp, serverNames, h0, hf]
  · have h0 : upOk "mcp" = true := hpre 0 (by omega)
    have h1 : upOk "addition" = true := hpre 1 (by omega)
    have hf : upOk "subtraction" = false := hfail
    simp [bringUp, serverNames, h0, h1, hf]
  · have h0 : upOk "mcp" = true := hpre 0 (by omega)
    have h1 : upOk "addition" = true := hpre 1 (by omega)
    have h2 : upOk "subtraction" = true := hpre 2 (by omega)
    have hf : upOk "host" = false := hfail
    simp [bringUp, serverNames, h0, h1, h2, hf]

lemma stop_restores (st0 : ExpState) (base : String → Option String)
    (hst : st0.started = true)
    (h1 : ∀ kv ∈ st0.envOverrides, kv.2 = base kv.1)
    (h2 : ∀ k, st0.envOverrides.find? (fun kv => kv.1 == k) = none → st0.environ k = base k) :
    (∀ k, (Experiment.stop st0).1.environ k = base k)
    ∧ (Experiment.stop st0).1.envOverrides = []
    ∧ (Experiment.stop st0).1.started = false
    ∧ (Experiment.stop st0).1.handles = []
    ∧ (Experiment.stop st0).1.hostClient = false
    ∧ (Experiment.stop st0).2 = st0.handles.reverse.map LifecycleAction.serverStopped := by
  rw [Experiment.stop, if_neg (by simp [hst])]
  refine ⟨?_, ?_, rfl, ?_, ?_, rfl⟩
  · exact envInv_restore base { st0 with hostClient := false, handles := [] } h1 h2
  · exact (restore_env_fields { st0 with hostClient := false, handles := [] }).2.2.2
  · exact (restore_env_fields { st0 with hostClient := false, handles := [] }).2.1
  · exact (restore_env_fields { st0 with hostClient := false, handles := [] }).2.2.1

set_option maxHeartbeats 1600000 in
lemma start_success_core (cfg : ExperimentConfig) (upOk : String → Bool) (st : ExpState)
    (hstarted : st.started = false) (hov : st.envOverrides = [])
    (hkey : ¬(truthyOpt cfg.llm_api_key = false ∧ truthyOpt (st.environ "LLM_API_KEY") = false))
    (hok : (bringUp upOk serverNames).2.2 = true) :
    (Experiment.start cfg upOk st).2.2 = false
    ∧ (Experiment.start cfg upOk st).1.started = true
    ∧ (Experiment.start cfg upOk st).1.hostClient = true
    ∧ (Experiment.start cfg upOk st).1.handles = st.handles ++ (bringUp upOk serverNames).1
    ∧ (Experiment.start cfg upOk st).2.1 = (bringUp upOk serverNames).2.1
    ∧ (∀ kv ∈ (Experiment.start cfg upOk st).1.envOverrides, kv.2 = st.environ kv.1)
    ∧ (∀ k, (Experiment.start cfg upOk st).1.envOverrides.find? (fun kv => kv.1 == k) = none →
        (Experiment.start cfg upOk st).1.environ k = st.environ k) := by
  have h1 : ∀ kv ∈ st.envOverrides, kv.2 = st.environ kv.1 := by rw [hov]; simp
  have h2 : ∀ k, st.envOverrides.find? (fun kv => kv.1 == k) = none →
      st.environ k = st.environ k := fun _ _ => rfl
  simp only [Experiment.start]
  rw [if_neg (by simp [hstarted]), if_neg hkey]
  by_cases htr : truthyOpt cfg.llm_api_key = true
  · rw [if_pos htr, if_pos (by simp [hok])]
    have hinv := envInv_set_env_chain
      [("LLM_API_KEY", cfg.llm_api_key.getD ""), ("LLM_MODEL", cfg.llm_model),
        ("MCP_SERVER_URL", "http://" ++ cfg.host ++ ":" ++ toString cfg.mcp_port ++ "/mcp"),
        ("ADDITION_AGENT_URL", "http://" ++ cfg.host ++ ":" ++ toString cfg.addition_port),
        ("SUBTRACTION_AGENT_URL", "http://" ++ cfg.host ++ ":" ++ toString cfg.subtraction_port),
        ("A2A_HOST_PUBLIC_URL", "http://" ++ cfg.host ++ ":" ++ toString cfg.host_port)]
      st.environ st h1 h2
    simp only [List.foldl_cons, List.foldl_nil] at hinv
    have hh := (foldl_set_env_fields
      [("LLM_API_KEY", cfg.llm_api_key.getD ""), ("LLM_MODEL", cfg.llm_model),
        ("MCP_SERVER_URL", "http://" ++ cfg.host ++ ":" ++ toString cfg.mcp_port ++ "/mcp"),
        ("ADDITION_AGENT_URL", "http://" ++ cfg.host ++ ":" ++ toString cfg.addition_port),
        ("SUBTRACTION_AGENT_URL", "http://" ++ cfg.host ++ ":" ++ toString cfg.subtraction_port),
        ("A2A_HOST_PUBLIC_URL", "http://" ++ cfg.host ++ ":" ++ toString cfg.host_port)] st).2.1
    simp only [List.foldl_cons, List.foldl_nil] at hh
    exact ⟨rfl, rfl, rfl,
      congrArg (fun l => l ++ (bringUp upOk serverNames).1) hh, rfl, hinv.1, hinv.2⟩
  · rw [if_neg htr, if_pos (by simp [hok])]
    have hinv := envInv_set_env_chain
      [("LLM_MODEL", cfg.llm_model),
        ("MCP_SERVER_URL", "http://" ++ cfg.host ++ ":" ++ toString cfg.mcp_port ++ "/mcp"),
        ("ADDITION_AGENT_URL", "http://" ++ cfg.host ++ ":" ++ toString cfg.addition_port),
        ("SUBTRACTION_AGENT_URL", "http://" ++ cfg.host ++ ":" ++ toString cfg.subtraction_port),
        ("A2A_HOST_PUBLIC_URL", "http://" ++ cfg.host ++ ":" ++ toString cfg.host_port)]
      st.environ st h1 h2
    simp only [List.foldl_cons, List.foldl_nil] at hinv
    have hh := (foldl_set_env_fields
      [("LLM_MODEL", cfg.llm_model),
        ("MCP_SERVER_URL", "http://" ++ cfg.host ++ ":" ++ toString cfg.mcp_port ++ "/mcp"),
        ("ADDITION_AGENT_URL", "http://" ++ cfg.host ++ ":" ++ toString cfg.addition_port),
        ("SUBTRACTION_AGENT_URL", "http://" ++ cfg.host ++ ":" ++ toString cfg.subtraction_port),
        ("A2A_HOST_PUBLIC_URL", "http://" ++ cfg.host ++ ":" ++ toString cfg.host_port)] st).2.1
    simp only [List.foldl_cons, List.foldl_nil] at hh
    exact ⟨rfl, rfl, rfl,
      congrArg (fun l => l ++ (bringUp upOk serverNames).1) hh, rfl, hinv.1, hinv.2⟩

/-- C4: if `Experiment.start` raises because the `i`-th server of the fixed
bring-up order (mcp, addition, subtraction, host) fails to start while every
earlier one started, then the call reports the exception, every previously
started server is stopped in reverse start order before it propagates, the
handle list stays empty, every environment override applied so far is
restored to its prior value, and the experiment is left not-started. -/
theorem c4_start_rollback (cfg : ExperimentConfig) (upOk : String → Bool) (st : ExpState)
    (i : ℕ) (hi : i < 4)
    (hstarted : st.started = false) (hhandles : st.handles = [])
    (hov : st.envOverrides = [])
    (hkey : ¬(truthyOpt cfg.llm_api_key = false ∧ truthyOpt (st.environ "LLM_API_KEY") = false))
    (hfail : upOk (serverNames.getD i "") = false)
    (hpre : ∀ j : Fin i, upOk (serverNames.getD j.1 "") = true) :
    (Experiment.start cfg upOk st).2.2 = true
    ∧ (Experiment.start cfg upOk st).1.started = false
    ∧ (Experiment.start cfg upOk st).1.handles = []
    ∧ (Experiment.start cfg upOk st).1.envOverrides = []
    ∧ (∀ k, (Experiment.start cfg upOk st).1.environ k = st.environ k)
    ∧ (Experiment.start cfg upOk st).2.1
        = (serverNames.take i).map LifecycleAction.serverStarted
          ++ [LifecycleAction.serverStartFailed (serverNames.getD i "")]
          ++ (serverNames.take i).reverse.map LifecycleAction.serverStopped := by
  have hb := bringUp_first_fail upOk i hi hfail (fun j hj => hpre ⟨j, hj⟩)
  have hf2 : (bringUp upOk serverNames).2.2 = false := by rw [hb]
  have hp := start_fail_props cfg upOk st hstarted hov hkey hf2
  refine ⟨hp.1, hp.2.1, (hp.2.2.1).trans hhandles, hp.2.2.2.2.1, hp.2.2.2.2.2.1, ?_⟩
  rw [hp.2.2.2.2.2.2, hb]

/-- Witness for C4: the subtraction server (index 2) fails while mcp and
addition start, from a fresh state with an API key configured. -/
theorem c4_start_rollback_witness :
    (Experiment.start { llm_api_key := some "sk" }
        (fun n => n == "mcp" || n == "addition")
        ⟨fun _ => none, [], [], false, false⟩).2.2 = true
    ∧ (Experiment.start { llm_api_key := some "sk" }
        (fun n => n == "mcp" || n == "addition")
        ⟨fun _ => none, [], [], false, false⟩).1.started = false
    ∧ (Experiment.start { llm_api_key := some "sk" }
        (fun n => n == "mcp" || n == "addition")
        ⟨fun _ => none, [], [], false, false⟩).1.handles = []
    ∧ (Experiment.start { llm_api_key := some "sk" }
        (fun n => n == "mcp" || n == "addition")
        ⟨fun _ => none, [], [], false, false⟩).1.envOverrides = []
    ∧ (∀ k, (Experiment.start { llm_api_key := some "sk" }
        (fun n => n == "mcp" || n == "addition")
        ⟨fun _ => none, [], [], false, false⟩).1.environ k
          = (⟨fun _ => none, [], [], false, false⟩ : ExpState).environ k)
    ∧ (Experiment.start { llm_api_key := some "sk" }
        (fun n => n == "mcp" || n == "addition")
        ⟨fun _ => none, [], [], false, false⟩).2.1
        = (serverNames.take 2).map LifecycleAction.serverStarted
          ++ [LifecycleAction.serverStartFailed (serverNames.getD 2 "")]
          ++ (serverNames.take 2).reverse.map LifecycleAction.serverStopped :=
  c4_start_rollback { llm_api_key := some "sk" }
    (fun n => n == "mcp" || n == "addition")
    ⟨fun _ => none, [], [], false, false⟩ 2
    (by decide) rfl rfl rfl (by decide) (by decide) (by decide)

/-- C5: `Experiment.start` is a no-op (same state, no actions, no exception)
whenever the experiment is already started, `Experiment.stop` is a no-op
whenever it is stopped — so a second consecutive `start` (resp. `stop`) adds
no observable effect — and after a successful `start` followed by `stop`
every process-environment key holds exactly its pre-start value (keys absent
before `start` are absent again) with no overrides left recorded. -/
theorem c5_idempotent_start_stop (cfg : ExperimentConfig) (upOk : String → Bool)
    (st : ExpState)
    (hstarted : st.started = false) (hov : st.envOverrides = [])
    (hkey : ¬(truthyOpt cfg.llm_api_key = false ∧ truthyOpt (st.environ "LLM_API_KEY") = false))
    (hok : (bringUp upOk serverNames).2.2 = true) :
    (∀ s : ExpState, s.started = true → Experiment.start cfg upOk s = (s, [], false))
    ∧ (∀ s : ExpState, s.started = false → Experiment.stop s = (s, []))
    ∧ Experiment.start cfg upOk (Experiment.start cfg upOk st).1
        = ((Experiment.start cfg upOk st).1, [], false)
    ∧ (∀ k, (Experiment.stop (Experiment.start cfg upOk st).1).1.environ k = st.environ k)
    ∧ (Experiment.stop (Experiment.start cfg upOk st).1).1.envOverrides = []
    ∧ (Experiment.stop (Experiment.start cfg upOk st).1).1.started = false
    ∧ Experiment.stop (Experiment.stop (Experiment.start cfg upOk st).1).1
        = ((Experiment.stop (Experiment.start cfg upOk st).1).1, []) := by
  have hcore := start_success_core cfg upOk st hstarted hov hkey hok
  have hstop := stop_restores (Experiment.start cfg upOk st).1 st.environ
      hcore.2.1 hcore.2.2.2.2.2.1 hcore.2.2.2.2.2.2
  have hstart_noop : ∀ s : ExpState, s.started = true →
      Experiment.start cfg upOk s = (s, [], false) := by
    intro s hs; rw [Experiment.start, if_pos hs]
  have hstop_noop : ∀ s : ExpState, s.started = false → Experiment.stop s = (s, []) := by
    intro s hs; rw [Experiment.stop, if_pos hs]
  exact ⟨hstart_noop, hstop_noop,
    hstart_noop _ hcore.2.1,
    hstop.1, hstop.2.1, hstop.2.2.1,
    hstop_noop _ hstop.2.2.1⟩

/-- Witness for C5: all four servers start, from a fresh state with an API
key configured. -/
theorem c5_idempotent_start_stop_witness :
    (∀ s : ExpState, s.started = true →
        Experiment.start { llm_api_key := some "sk" } (fun _ => true) s = (s, [], false))
    ∧ (∀ s : ExpState, s.started = false → Experiment.stop s = (s, []))
    ∧ Experiment.start { llm_api_key := some "sk" } (fun _ => true)
        (Experiment.start { llm_api_key := some "sk" } (fun _ => true)
          ⟨fun _ => none, [], [], false, false⟩).1
        = ((Experiment.start { llm_api_key := some "sk" } (fun _ => true)
          ⟨fun _ => none, [], [], false, false⟩).1, [], false)
    ∧ (∀ k, (Experiment.stop (Experiment.start { llm_api_key := some "sk" } (fun _ => true)
          ⟨fun _ => none, [], [], false, false⟩).1).1.environ k
        = (⟨fun _ => none, [], [], false, false⟩ : ExpState).environ k)
    ∧ (Experiment.stop (Experiment.start { llm_api_key := some "sk" } (fun _ => true)
          ⟨fun _ => none, [], [], false, false⟩).1).1.envOverrides = []
    ∧ (Experiment.stop (Experiment.start { llm_api_key := some "sk" } (fun _ => true)
          ⟨fun _ => none, [], [], false, false⟩).1).1.started = false
    ∧ Experiment.stop (Experiment.stop (Experiment.start { llm_api_key := some "sk" }
          (fun _ => true) ⟨fun _ => none, [], [], false, false⟩).1).1
        = ((Experiment.stop (Experiment.start { llm_api_key := some "sk" } (fun _ => true)
          ⟨fun _ => none, [], [], false, false⟩).1).1, []) :=
  c5_idempotent_start_stop { llm_api_key := some "sk" } (fun _ => true)
    ⟨fun _ => none, [], [], false, false⟩ rfl rfl (by decide) (by decide)
